import Mathlib

/-!
Verification of `scripts/fix-unused-imports.py`.

The script has two stages: `parse_unused_errors` parses TS6133 diagnostic
lines with `re.match(r"(.*?)\((\d+),(\d+)\): error TS6133: '(.*?)' is declared
but its value is never read\.", line)`, and `fix_unused_import` rewrites a
file line by line with a fixed set of `re.search`/`re.sub` patterns.

The embedding works on `List Char`.  Each regular expression of the source is
hand-compiled into a recognizer or rewriter; where the pattern's backtracking
is deterministic (a greedy `\d+` or `\s+` followed by a character that the
class cannot match) the compilation uses maximal runs, and the lazy groups of
the diagnostic pattern scan for the first position at which the remainder
matches.  Character classes `\w`, `\s`, `\d` are modelled on their ASCII
subsets, which covers every character the patterns themselves mention.  The
identifier inserted into the patterns goes through `re.escape` in the source;
the embedding of the `\b`-checks around it assumes the identifier-shaped
arguments the script receives (nonempty words), which the theorems hypothesise
as `IsIdent`.
-/

set_option linter.unusedVariables false

/-- ASCII word character: the `\w` class used by the `\b` boundaries. -/
def isWordChar (c : Char) : Bool := c.isAlphanum || c == '_'

/-- ASCII whitespace: the `\s` class of the patterns. -/
def isPySpace (c : Char) : Bool :=
  c == ' ' || c == '\t' || c == '\n' || c == '\r' || c == '\x0b' || c == '\x0c'

/-- Last element of a list, as an option. -/
def lastOpt : List Char → Option Char
  | [] => none
  | [c] => some c
  | _ :: c :: cs => lastOpt (c :: cs)

/-- The character before the current position is a word boundary partner:
either there is none (start of string) or it is not a word character. -/
def prevOk : Option Char → Bool
  | none => true
  | some c => !isWordChar c

/-- The position after a matched word is a boundary: end of string or a
non-word character. -/
def rightOk : List Char → Bool
  | [] => true
  | c :: _ => !isWordChar c

/-- The pattern `\b v \b` matches at the head of `cs`, where the character before `cs`
is `prev` (none at string start). -/
def boundedAt (v : List Char) (prev : Option Char) (cs : List Char) : Bool :=
  v.isPrefixOf cs && prevOk prev && rightOk (cs.drop v.length)

/-- The search `re.search(r'\b v \b', ...)` on the suffix `cs` whose preceding character
is `prev`: some word-bounded occurrence of `v` exists. -/
def hasWBFrom (v : List Char) (prev : Option Char) : List Char → Bool
  | [] => false
  | c :: cs => boundedAt v prev (c :: cs) || hasWBFrom v (some c) cs

/-- Glue for the decomposition view of `hasWBFrom`: the segment `a` before an
occurrence ends in a boundary partner (or is empty and `prev` is one). -/
def leftOk (prev : Option Char) (a : List Char) : Bool :=
  match lastOpt a with
  | none => prevOk prev
  | some c => !isWordChar c

/-- Python's substring containment `needle in hay`. -/
def subMem (needle : List Char) : List Char → Bool
  | [] => needle.isEmpty
  | c :: cs => needle.isPrefixOf (c :: cs) || subMem needle cs

/-- Split at the first occurrence of the character `t` (used for `[^}]*...}`:
everything before the matched `}` must be `}`-free, so the matched brace is
the first one). -/
def splitAtChar (t : Char) : List Char → Option (List Char × List Char)
  | [] => none
  | c :: cs =>
    if c = t then some ([], cs)
    else
      match splitAtChar t cs with
      | some p => some (c :: p.1, p.2)
      | none => none

/-- Split at the first occurrence of the literal `term`, refusing to scan past
a newline (the preceding lazy group is `(.*?)` and `.` cannot match `\n`). -/
def splitAtFirst (term : List Char) : List Char → Option (List Char × List Char)
  | [] => if term.isEmpty then some ([], []) else none
  | c :: cs =>
    if term.isPrefixOf (c :: cs) then some ([], (c :: cs).drop term.length)
    else if c = '\n' then none
    else
      match splitAtFirst term cs with
      | some p => some (c :: p.1, p.2)
      | none => none

/-- The literal between the column group and the identifier group of the
diagnostic pattern. -/
def errMid : List Char := (": error TS6133: '").toList

/-- The literal closing the diagnostic pattern (after the identifier). -/
def errTerm : List Char := ("' is declared but its value is never read.").toList

/-- The end of the diagnostic pattern, after `)`: the literal
`: error TS6133: '`, then the lazy identifier group ended by the first
occurrence of the closing literal; anything may follow. -/
def matchMid (d1 d2 r5 : List Char) : Option (List Char × List Char × List Char) :=
  if errMid.isPrefixOf r5 then
    match splitAtFirst errTerm (r5.drop errMid.length) with
    | some p => some (d1, d2, p.1)
    | none => none
  else none

/-- The column group `(\d+)\)` followed by the rest of the pattern. -/
def matchColGroup (d1 r3 : List Char) : Option (List Char × List Char × List Char) :=
  if (r3.takeWhile Char.isDigit).isEmpty then none
  else
    match r3.dropWhile Char.isDigit with
    | [] => none
    | c2 :: r5 => if c2 = ')' then matchMid d1 (r3.takeWhile Char.isDigit) r5 else none

/-- The line group `(\d+),` followed by the rest of the pattern. -/
def matchLineGroup (r1 : List Char) : Option (List Char × List Char × List Char) :=
  if (r1.takeWhile Char.isDigit).isEmpty then none
  else
    match r1.dropWhile Char.isDigit with
    | [] => none
    | c1 :: r3 => if c1 = ',' then matchColGroup (r1.takeWhile Char.isDigit) r3 else none

/-- The tail of the diagnostic regex after the lazy file group:
`\((\d+),(\d+)\): error TS6133: '(.*?)' is declared but its value is never
read\.` matched at the head of `cs`; returns the line, column and identifier
groups.  A greedy `\d+` before a non-digit literal is deterministic: the
maximal digit run. -/
def matchAfterFile (cs : List Char) : Option (List Char × List Char × List Char) :=
  match cs with
  | [] => none
  | c0 :: r1 => if c0 = '(' then matchLineGroup r1 else none

/-- The lazy file group `(.*?)` of `re.match`: try the remainder of the
pattern at each position, shortest prefix first; the group cannot cross a
newline.  `acc` is the reversed prefix consumed so far. -/
def scanTS : List Char → List Char → Option (List Char × List Char × List Char × List Char)
  | _, [] => none
  | acc, c :: cs' =>
    match matchAfterFile (c :: cs') with
    | some g => some (acc.reverse, g.1, g.2.1, g.2.2)
    | none => if c = '\n' then none else scanTS (c :: acc) cs'

/-- Python `int()` on a digit string. -/
def digitsVal (ds : List Char) : Nat := ds.foldl (fun n c => n * 10 + (c.toNat - 48)) 0

/-- One diagnostic record of `parse_unused_errors`. -/
structure TSError where
  file : List Char
  line : Nat
  col : Nat
  var : List Char
deriving DecidableEq

/-- The `re.match` of the TS6133 pattern against one line, building the record
appended by the source (`int()` on the two digit groups). -/
def matchTS6133 (line : List Char) : Option TSError :=
  match scanTS [] line with
  | some g => some ⟨g.1, digitsVal g.2.1, digitsVal g.2.2.1, g.2.2.2⟩
  | none => none

/-- Python `str.split('\n')`. -/
def splitNL : List Char → List (List Char)
  | [] => [[]]
  | c :: cs =>
    if c = '\n' then [] :: splitNL cs
    else
      match splitNL cs with
      | g :: gs => (c :: g) :: gs
      | [] => [[c]]

/-- The accumulation loop of `parse_unused_errors`: append a record for each
matching line, in input order. -/
def parseLoop : List (List Char) → List TSError → List TSError
  | [], acc => acc
  | l :: ls, acc =>
    match matchTS6133 l with
    | some e => parseLoop ls (acc ++ [e])
    | none => parseLoop ls acc

/-- The function `parse_unused_errors`: split the diagnostic text on newlines and collect
the records of the matching lines. -/
def parse_unused_errors (s : List Char) : List TSError := parseLoop (splitNL s) []

/-- The literal `import`. -/
def impLit : List Char := ("import").toList

/-- The literal `from`. -/
def fromLit : List Char := ("from").toList

/-- The literal `const`. -/
def constLit : List Char := ("const").toList

/-- The substitution `re.sub(r',\s*V\b', '', line)`: remove every comma followed by optional
whitespace and a right-bounded occurrence of the identifier; scanning resumes
after each match (the skip counter counts the characters of the match still
to be dropped). -/
def sub1Go (v : List Char) : Nat → List Char → List Char
  | _, [] => []
  | k + 1, _ :: cs => sub1Go v k cs
  | 0, c :: cs =>
    if c = ',' then
      (fun ws r =>
        if v.isPrefixOf r && rightOk (r.drop v.length) then
          sub1Go v (ws.length + v.length) cs
        else c :: sub1Go v 0 cs) (cs.takeWhile isPySpace) (cs.dropWhile isPySpace)
    else c :: sub1Go v 0 cs

/-- The substitution `re.sub(r'\bV\s*,', '', line)`: remove every left-bounded occurrence of
the identifier followed by optional whitespace and a comma.  `prev` is the
character of the original string before the current position. -/
def sub2Go (v : List Char) : Nat → Option Char → List Char → List Char
  | _, _, [] => []
  | k + 1, _, c :: cs => sub2Go v k (some c) cs
  | 0, prev, c :: cs =>
    if prevOk prev && v.isPrefixOf (c :: cs) then
      (fun r =>
        (fun ws r2 =>
          if r2.head? == some ',' then sub2Go v (v.length - 1 + ws.length + 1) (some c) cs
          else c :: sub2Go v 0 (some c) cs)
          (r.takeWhile isPySpace) (r.dropWhile isPySpace)) ((c :: cs).drop v.length)
    else c :: sub2Go v 0 (some c) cs

/-- The substitution `re.sub(r'\bV\b', '', line)`: remove every word-bounded occurrence of the
identifier. -/
def sub3Go (v : List Char) : Nat → Option Char → List Char → List Char
  | _, _, [] => []
  | k + 1, _, c :: cs => sub3Go v k (some c) cs
  | 0, prev, c :: cs =>
    if boundedAt v prev (c :: cs) then sub3Go v (v.length - 1) (some c) cs
    else c :: sub3Go v 0 (some c) cs

/-- The canonical replacement text of the empty-import cleanup. -/
def emptyImportCanon : List Char := ("import {} from").toList

/-- The pattern `import\s*\{\s*\}\s*from` matched at the head; returns the match length.
Each `\s*` is followed by a non-space literal, so the greedy runs are
deterministic. -/
def matchEmptyImport (cs : List Char) : Option Nat :=
  if impLit.isPrefixOf cs then
    (fun r1 =>
      (fun w1 r2 =>
        match r2 with
        | [] => none
        | b1 :: r3 =>
          if b1 = '{' then
            (fun w2 r4 =>
              match r4 with
              | [] => none
              | b2 :: r5 =>
                if b2 = '}' then
                  (fun w3 r6 =>
                    if fromLit.isPrefixOf r6 then
                      some (6 + w1.length + 1 + w2.length + 1 + w3.length + 4)
                    else none) (r5.takeWhile isPySpace) (r5.dropWhile isPySpace)
                else none) (r3.takeWhile isPySpace) (r3.dropWhile isPySpace)
          else none) (r1.takeWhile isPySpace) (r1.dropWhile isPySpace)) (cs.drop 6)
  else none

/-- The substitution `re.sub(r'import\s*{\s*}\s*from', 'import {} from', line)`. -/
def sub4Go : Nat → List Char → List Char
  | _, [] => []
  | k + 1, _ :: cs => sub4Go k cs
  | 0, c :: cs =>
    match matchEmptyImport (c :: cs) with
    | some len => emptyImportCanon ++ sub4Go (len - 1) cs
    | none => c :: sub4Go 0 cs

/-- The search `re.search(r'import\s*{\s*}\s*from', line)`. -/
def searchEmptyImport : List Char → Bool
  | [] => false
  | c :: cs => (matchEmptyImport (c :: cs)).isSome || searchEmptyImport cs

/-- The pattern `import\s*\{[^}]*\bV\b[^}]*\}` matched at the head: after `import` and
optional whitespace comes `{`; the bracket classes cannot match `}`, so the
closing brace of any match is the first `}` after it, and the identifier must
occur word-bounded strictly inside. -/
def p1At (v : List Char) (cs : List Char) : Bool :=
  if impLit.isPrefixOf cs then
    match (cs.drop 6).dropWhile isPySpace with
    | [] => false
    | b :: inner =>
      if b = '{' then
        match splitAtChar '}' inner with
        | some p => hasWBFrom v (some '{') p.1
        | none => false
      else false
  else false

/-- The `re.search` of pattern 1 over the whole line. -/
def p1 (v : List Char) : List Char → Bool
  | [] => false
  | c :: cs => p1At v (c :: cs) || p1 v cs

/-- The pattern `import\s+V\s+from` matched at the head. -/
def p2At (v : List Char) (cs : List Char) : Bool :=
  if impLit.isPrefixOf cs then
    (fun w1 r2 =>
      !w1.isEmpty && v.isPrefixOf r2 &&
        ((fun r3 =>
          !(r3.takeWhile isPySpace).isEmpty &&
            fromLit.isPrefixOf (r3.dropWhile isPySpace)) (r2.drop v.length)))
      ((cs.drop 6).takeWhile isPySpace) ((cs.drop 6).dropWhile isPySpace)
  else false

/-- The `re.search` of pattern 2 over the whole line. -/
def p2 (v : List Char) : List Char → Bool
  | [] => false
  | c :: cs => p2At v (c :: cs) || p2 v cs

/-- The pattern `import\s*\*\s*as\s+V\s+from` matched at the head. -/
def p3At (v : List Char) (cs : List Char) : Bool :=
  if impLit.isPrefixOf cs then
    match (cs.drop 6).dropWhile isPySpace with
    | [] => false
    | b :: r2 =>
      if b = '*' then
        (fun u =>
          if ("as").toList.isPrefixOf u then
            (fun r3 =>
              (fun w r4 =>
                !w.isEmpty && v.isPrefixOf r4 &&
                  ((fun r5 =>
                    !(r5.takeWhile isPySpace).isEmpty &&
                      fromLit.isPrefixOf (r5.dropWhile isPySpace)) (r4.drop v.length)))
                (r3.takeWhile isPySpace) (r3.dropWhile isPySpace)) (u.drop 2)
          else false) (r2.dropWhile isPySpace)
      else false
  else false

/-- The `re.search` of pattern 3 over the whole line. -/
def p3 (v : List Char) : List Char → Bool
  | [] => false
  | c :: cs => p3At v (c :: cs) || p3 v cs

/-- The keyword alternation `(const|let|var)` at the head; returns the rest.
The alternatives start with distinct letters, so at most one applies. -/
def declKw (cs : List Char) : Option (List Char) :=
  if constLit.isPrefixOf cs then some (cs.drop 5)
  else if ("let").toList.isPrefixOf cs then some (cs.drop 3)
  else if ("var").toList.isPrefixOf cs then some (cs.drop 3)
  else none

/-- The pattern `\s+.*\bV\b` after the keyword: at least one whitespace character, then a
word-bounded occurrence of the identifier reachable without crossing a
newline (`.` does not match `\n`, while `\s` does, so the scan may consume
further whitespace before starting the `.*` segment). -/
def declWsScan (v : List Char) : List Char → Bool
  | [] => false
  | c :: cs =>
    isPySpace c &&
      (hasWBFrom v (some c) (cs.takeWhile (fun d => !(d = '\n'))) || declWsScan v cs)

/-- The search `re.search(r'^\s*(const|let|var)\s+.*\bV\b', line)`: anchored at the line
start (no MULTILINE flag). -/
def declAt (v : List Char) (line : List Char) : Bool :=
  match declKw (line.dropWhile isPySpace) with
  | some r => declWsScan v r
  | none => false

/-- The pattern `const\s*\{\s*[^}]*\bV\b[^}]*\}\s*=` matched at the head.  The `\s*`
after `{` is absorbed by `[^}]*`; the closing brace is the first `}`. -/
def destrAt (v : List Char) (cs : List Char) : Bool :=
  if constLit.isPrefixOf cs then
    match (cs.drop 5).dropWhile isPySpace with
    | [] => false
    | b :: inner =>
      if b = '{' then
        match splitAtChar '}' inner with
        | some p =>
          hasWBFrom v (some '{') p.1 &&
            ((p.2.dropWhile isPySpace).head? == some '=')
        | none => false
      else false
  else false

/-- The `re.search` of the destructuring pattern over the whole line. -/
def destrSearch (v : List Char) : List Char → Bool
  | [] => false
  | c :: cs => destrAt v (c :: cs) || destrSearch v cs

/-- The per-line body of the rewrite loop of `fix_unused_import`: `none` means
the line is dropped (`continue`), `some l` that `l` is appended; the flag is
whether this line set `modified`. -/
def processLine (v : List Char) (line : List Char) : Option (List Char) × Bool :=
  if subMem impLit line && subMem v line then
    if p1 v line then
      (fun n4 =>
        if searchEmptyImport n4 then ((none : Option (List Char)), true)
        else (some n4, true))
        (sub4Go 0 (sub3Go v 0 none (sub2Go v 0 none (sub1Go v 0 line))))
    else if p2 v line then (none, true)
    else if p3 v line then (none, true)
    else (some line, false)
  else
    if declAt v line then
      if destrSearch v line then
        (some (sub3Go v 0 none (sub2Go v 0 none (sub1Go v 0 line))), true)
      else (some line, false)
    else (some line, false)

/-- The rewrite loop over all lines: collects the kept lines in order and
the disjunction of the per-line `modified` flags. -/
def fixLines (v : List Char) : List (List Char) → List (List Char) × Bool
  | [] => ([], false)
  | l :: ls =>
    (fun r rest =>
      match r.1 with
      | none => (rest.1, r.2 || rest.2)
      | some l2 => (l2 :: rest.1, r.2 || rest.2)) (processLine v l) (fixLines v ls)

/-- The function `fix_unused_import` at the content level: the returned flag is the
function's return value, the list is the file content afterwards (rewritten
only when `modified`). -/
def fix_unused_import (v : List Char) (lines : List (List Char)) : Bool × List (List Char) :=
  match fixLines v lines with
  | (nl, true) => (true, nl)
  | (_, false) => (false, lines)

/-- The function `fix_unused_import` with its file-system effects: the file system is a
partial map from paths to line lists; a missing file makes the initial
`open(file_path, 'r')` raise, the handler prints `Error fixing {path}: {e}`
(modelled as logging the path) and the function returns `False`; otherwise
the file is overwritten exactly when the rewrite modified a line. -/
def fixFile (fs : String → Option (List (List Char))) (path : String) (v : List Char) :
    Bool × (String → Option (List (List Char))) × List String :=
  match fs path with
  | none => (false, fs, ["Error fixing " ++ path])
  | some lines =>
    match fixLines v lines with
    | (nl, true) => (true, fun p => if p = path then some nl else fs p, [])
    | (_, false) => (false, fs, [])

/-- The last element of `w`, or `p` if `w` is empty: the character preceding
the scan position after `w` has been consumed. -/
def lastOr (w : List Char) (p : Option Char) : Option Char :=
  match lastOpt w with
  | some a => some a
  | none => p

/-- Identifier-shaped pattern argument: nonempty, all word characters (the
script inserts `re.escape(variable_name)` of a TypeScript identifier). -/
def IsIdent (v : List Char) : Prop := v ≠ [] ∧ ∀ c ∈ v, isWordChar c = true

/-- A word-bounded occurrence of `v` inside `s` whose left neighbour is an
actual (non-word) character of `s`: such an occurrence is found by the
`\b v \b` scan whatever precedes `s`. -/
def InternalWB (v s : List Char) : Prop :=
  ∃ a b, s = a ++ v ++ b ∧
    (∃ d, lastOpt a = some d ∧ isWordChar d = false) ∧ rightOk b = true

/-- Size of a line list: total characters plus number of lines (so dropping
an empty line still shrinks it). -/
def linesMeasure (ls : List (List Char)) : Nat := (ls.map List.length).sum + ls.length

/-! ### List utilities -/

theorem isPrefixOf_ex {l m : List Char} (h : l.isPrefixOf m = true) : ∃ t, m = l ++ t := by
  induction l generalizing m with
  | nil => exact ⟨m, rfl⟩
  | cons a as ih =>
    cases m with
    | nil => simp [List.isPrefixOf] at h
    | cons b bs =>
      simp only [List.isPrefixOf, Bool.and_eq_true, beq_iff_eq] at h
      obtain ⟨t, ht⟩ := ih h.2
      exact ⟨t, by simp [h.1, ht]⟩

theorem isPrefixOf_app (l t : List Char) : l.isPrefixOf (l ++ t) = true := by
  induction l with
  | nil => simp [List.isPrefixOf]
  | cons a as ih => simp [List.isPrefixOf, ih]

theorem dropWhile_head_not {p : Char → Bool} {l : List Char} {c : Char} {t : List Char}
    (h : l.dropWhile p = c :: t) : p c = false := by
  induction l with
  | nil => simp [List.dropWhile] at h
  | cons a as ih =>
    by_cases hp : p a
    · simp [List.dropWhile, hp] at h; exact ih h
    · simp [List.dropWhile, hp] at h; rw [← h.1]; simp [hp]

theorem takeWhile_ne_nil {p : Char → Bool} {l : List Char}
    (h : l.takeWhile p ≠ []) : ∃ e t, l = e :: t ∧ p e = true := by
  cases l with
  | nil => simp [List.takeWhile] at h
  | cons a as =>
    by_cases hp : p a
    · exact ⟨a, as, rfl, hp⟩
    · simp [List.takeWhile, hp] at h

theorem takeWhile_app_sat {p : Char → Bool} :
    ∀ (l1 : List Char) (b : Char) (l2 : List Char), (∀ c ∈ l1, p c = true) → p b = false →
      (l1 ++ b :: l2).takeWhile p = l1 ∧ (l1 ++ b :: l2).dropWhile p = b :: l2 := by
  intro l1
  induction l1 with
  | nil => intro b l2 _ hb; simp [List.takeWhile, List.dropWhile, hb]
  | cons a as ih =>
    intro b l2 hall hb
    have ha : p a = true := hall a (by simp)
    have := ih b l2 (fun c hc => hall c (by simp [hc])) hb
    simp [List.takeWhile, List.dropWhile, ha, this.1, this.2]

theorem lastOpt_eq_none {a : List Char} (h : lastOpt a = none) : a = [] := by
  cases a with
  | nil => rfl
  | cons c t =>
    exfalso
    induction t generalizing c with
    | nil => simp [lastOpt] at h
    | cons d u ih => exact ih d (by simpa [lastOpt] using h)

theorem lastOpt_cons_ne {c : Char} {a : List Char} (h : a ≠ []) :
    lastOpt (c :: a) = lastOpt a := by
  cases a with
  | nil => exact absurd rfl h
  | cons d t => rfl

theorem lastOpt_app {l a : List Char} (h : a ≠ []) : lastOpt (l ++ a) = lastOpt a := by
  induction l with
  | nil => rfl
  | cons c t ih =>
    have ht : t ++ a ≠ [] := by
      intro he
      rcases List.append_eq_nil.mp he with ⟨_, h2⟩
      exact h h2
    rw [List.cons_append, lastOpt_cons_ne ht, ih]

theorem lastOpt_mem : ∀ {a : List Char} {c : Char}, lastOpt a = some c → c ∈ a := by
  intro a
  induction a with
  | nil => intro c h; simp [lastOpt] at h
  | cons d t ih =>
    intro c h
    cases t with
    | nil => simp [lastOpt] at h; simp [h]
    | cons e u =>
      have := ih (by simpa [lastOpt] using h)
      simp [this]

theorem lastOpt_some_of_ne {a : List Char} (h : a ≠ []) : ∃ c, lastOpt a = some c := by
  cases hl : lastOpt a with
  | none => exact absurd (lastOpt_eq_none hl) h
  | some c => exact ⟨c, rfl⟩

theorem space_not_word {c : Char} (h : isPySpace c = true) : isWordChar c = false := by
  simp only [isPySpace, Bool.or_eq_true, beq_iff_eq] at h
  rcases h with ((((h | h) | h) | h) | h) | h <;> subst h <;> decide

/-! ### The word-boundary search and its decomposition view -/

theorem leftOk_cons (prev : Option Char) (c : Char) (a : List Char) :
    leftOk prev (c :: a) = leftOk (some c) a := by
  cases a with
  | nil => simp [leftOk, lastOpt, prevOk]
  | cons d t =>
    have h : lastOpt (c :: d :: t) = lastOpt (d :: t) := lastOpt_cons_ne (List.cons_ne_nil d t)
    cases hl : lastOpt (d :: t) with
    | none => exact absurd (lastOpt_eq_none hl) (List.cons_ne_nil d t)
    | some e => simp [leftOk, h, hl]

theorem hasWBFrom_of_decomp {v : List Char} (hv : v ≠ []) :
    ∀ (a : List Char) (prev : Option Char) (b : List Char),
      leftOk prev a = true → rightOk b = true →
      hasWBFrom v prev (a ++ v ++ b) = true := by
  intro a
  induction a with
  | nil =>
    intro prev b hl hr
    cases v with
    | nil => exact absurd rfl hv
    | cons v0 v2 =>
      have hb : boundedAt (v0 :: v2) prev ((v0 :: v2) ++ b) = true := by
        have h1 : (v0 :: v2).isPrefixOf ((v0 :: v2) ++ b) = true := isPrefixOf_app _ _
        have h2 : prevOk prev = true := by simpa [leftOk, lastOpt] using hl
        have h3 : ((v0 :: v2) ++ b).drop (v0 :: v2).length = b := List.drop_left _ _
        simp [boundedAt, h1, h2, h3, hr]
      calc hasWBFrom (v0 :: v2) prev ([] ++ (v0 :: v2) ++ b)
          = hasWBFrom (v0 :: v2) prev (v0 :: (v2 ++ b)) := by simp
        _ = true := by
            simp only [hasWBFrom, Bool.or_eq_true]
            exact Or.inl (by simpa using hb)
  | cons c a2 ih =>
    intro prev b hl hr
    have : hasWBFrom v (some c) (a2 ++ v ++ b) = true :=
      ih (some c) b (by rw [← leftOk_cons prev]; exact hl) hr
    simp only [List.cons_append, List.append_assoc] at *
    simp only [hasWBFrom, Bool.or_eq_true]
    exact Or.inr this

theorem hasWBFrom_decomp {v : List Char} :
    ∀ (s : List Char) (prev : Option Char), hasWBFrom v prev s = true →
      ∃ a b, s = a ++ v ++ b ∧ leftOk prev a = true ∧ rightOk b = true := by
  intro s
  induction s with
  | nil => intro prev h; simp [hasWBFrom] at h
  | cons c t ih =>
    intro prev h
    simp only [hasWBFrom, Bool.or_eq_true] at h
    rcases h with h | h
    · simp only [boundedAt, Bool.and_eq_true] at h
      obtain ⟨⟨hpre, hprev⟩, hr⟩ := h
      obtain ⟨r, hr2⟩ := isPrefixOf_ex hpre
      refine ⟨[], r, by simpa using hr2, by simpa [leftOk, lastOpt] using hprev, ?_⟩
      rw [hr2, List.drop_left] at hr
      exact hr
    · obtain ⟨a, b, ht, hl, hr⟩ := ih (some c) h
      exact ⟨c :: a, b, by simp [ht], by rw [leftOk_cons]; exact hl, hr⟩

theorem InternalWB.toWB {v s : List Char} (h : InternalWB v s) (hv : v ≠ []) :
    ∀ prev, hasWBFrom v prev s = true := by
  intro prev
  obtain ⟨a, b, hs, ⟨d, hd, hdw⟩, hr⟩ := h
  rw [hs]
  exact hasWBFrom_of_decomp hv a prev b (by simp [leftOk, hd, hdw]) hr

theorem InternalWB.cons {v s : List Char} (c : Char) (h : InternalWB v s) :
    InternalWB v (c :: s) := by
  obtain ⟨a, b, hs, ⟨d, hd, hdw⟩, hr⟩ := h
  have ha : a ≠ [] := by
    intro he; rw [he] at hd; simp [lastOpt] at hd
  exact ⟨c :: a, b, by simp [hs], ⟨d, by rw [lastOpt_cons_ne ha]; exact hd, hdw⟩, hr⟩

theorem InternalWB.app {v s : List Char} (pre : List Char) (h : InternalWB v s) :
    InternalWB v (pre ++ s) := by
  induction pre with
  | nil => simpa using h
  | cons c t ih => simpa using ih.cons c

/-! ### Soundness of the search patterns: a match contains a word-bounded
occurrence of the identifier -/

theorem splitAtChar_sound {t : Char} :
    ∀ (l pre rest : List Char), splitAtChar t l = some (pre, rest) →
      l = pre ++ t :: rest := by
  intro l
  induction l with
  | nil => intro pre rest h; simp [splitAtChar] at h
  | cons c cs ih =>
    intro pre rest h
    unfold splitAtChar at h
    by_cases hc : c = t
    · rw [if_pos hc] at h
      simp only [Option.some.injEq, Prod.mk.injEq] at h
      rw [← h.1, ← h.2, hc]
      rfl
    · rw [if_neg hc] at h
      cases hr : splitAtChar t cs with
      | none => rw [hr] at h; simp at h
      | some p =>
        rw [hr] at h
        simp only [Option.some.injEq, Prod.mk.injEq] at h
        rw [← h.1, ← h.2]
        simpa using ih p.1 p.2 (by simp [hr])

theorem rightOk_app {b t : List Char} (hb : rightOk b = true) (ht : rightOk t = true) :
    rightOk (b ++ t) = true := by
  cases b with
  | nil => simpa using ht
  | cons e u => simpa [rightOk] using hb

theorem drop_of_eq_app {cs pre t : List Char} {n : Nat} (hcs : cs = pre ++ t)
    (hn : pre.length = n) : cs.drop n = t := by
  rw [hcs, ← hn, List.drop_left]

theorem ne_nil_of_isEmpty_false {l : List Char} (h : l.isEmpty = false) : l ≠ [] := by
  intro he; rw [he] at h; simp at h

theorem p2At_internal {v cs : List Char} (h : p2At v cs = true) : InternalWB v cs := by
  unfold p2At at h
  by_cases hc : impLit.isPrefixOf cs = true
  swap
  · rw [if_neg hc] at h; simp at h
  rw [if_pos hc] at h
  obtain ⟨t, hcs⟩ := isPrefixOf_ex hc
  rw [drop_of_eq_app hcs (by decide)] at h
  simp only [Bool.and_eq_true, Bool.not_eq_true'] at h
  obtain ⟨⟨hw1e, hpre⟩, hw2e, _⟩ := h
  have hw1 := ne_nil_of_isEmpty_false hw1e
  obtain ⟨u, hu⟩ := isPrefixOf_ex hpre
  rw [drop_of_eq_app hu rfl] at hw2e
  have hw2 := ne_nil_of_isEmpty_false hw2e
  obtain ⟨d, hd⟩ := lastOpt_some_of_ne hw1
  have hdw : isWordChar d = false :=
    space_not_word (List.mem_takeWhile_imp (lastOpt_mem hd))
  obtain ⟨e, u2, he, hes⟩ := takeWhile_ne_nil hw2
  refine ⟨impLit ++ t.takeWhile isPySpace, u, ?_, ⟨d, ?_, hdw⟩, ?_⟩
  · rw [hcs]
    nth_rewrite 1 [← List.takeWhile_append_dropWhile isPySpace t]
    rw [hu]
    simp [List.append_assoc]
  · rw [lastOpt_app hw1]; exact hd
  · rw [he]
    simpa [rightOk] using space_not_word hes

theorem braceRegion_internal {v inner a2 b2 : List Char} {p2t : List Char}
    (hreg : ∃ reg, splitAtChar '}' inner = some (reg, p2t) ∧ reg = a2 ++ v ++ b2)
    (hl : leftOk (some '{') a2 = true) (hr : rightOk b2 = true) :
    InternalWB v ('{' :: inner) := by
  obtain ⟨reg, hsp, hregeq⟩ := hreg
  have hinner : inner = a2 ++ v ++ (b2 ++ '}' :: p2t) := by
    rw [splitAtChar_sound inner reg p2t hsp, hregeq]
    simp [List.append_assoc]
  have hlast : ∃ d, lastOpt ('{' :: a2) = some d ∧ isWordChar d = false := by
    cases hla : lastOpt a2 with
    | none =>
      rw [lastOpt_eq_none hla]
      exact ⟨'{', rfl, by decide⟩
    | some d =>
      refine ⟨d, ?_, ?_⟩
      · rw [lastOpt_cons_ne]
        · exact hla
        · intro he; rw [he] at hla; simp [lastOpt] at hla
      · simpa [leftOk, hla] using hl
  obtain ⟨d, hd, hdword⟩ := hlast
  refine ⟨'{' :: a2, b2 ++ '}' :: p2t, by simp [hinner], ⟨d, hd, hdword⟩, ?_⟩
  refine rightOk_app hr ?_
  have : isWordChar '}' = false := by decide
  simp [rightOk, this]

theorem p1At_internal {v cs : List Char} (h : p1At v cs = true) : InternalWB v cs := by
  unfold p1At at h
  split at h
  rotate_left
  · simp at h
  rename_i hc
  split at h
  · simp at h
  rename_i b inner hdw
  split at h
  rotate_left
  · simp at h
  rename_i hb
  split at h
  rotate_left
  · simp at h
  rename_i p hsp
  obtain ⟨t, hcs⟩ := isPrefixOf_ex hc
  rw [drop_of_eq_app hcs (by decide)] at hdw
  obtain ⟨a2, b2, hreg, hl, hr⟩ := hasWBFrom_decomp p.1 (some '{') h
  have hbrace : InternalWB v ('{' :: inner) :=
    braceRegion_internal ⟨p.1, by rw [hsp], hreg⟩ hl hr
  have h1 : InternalWB v (b :: inner) := by rw [hb]; exact hbrace
  have h2 : InternalWB v t := by
    nth_rewrite 1 [← List.takeWhile_append_dropWhile isPySpace t]
    rw [hdw]
    exact h1.app _
  rw [hcs]
  exact h2.app impLit

theorem destrAt_internal {v cs : List Char} (h : destrAt v cs = true) : InternalWB v cs := by
  unfold destrAt at h
  split at h
  rotate_left
  · simp at h
  rename_i hc
  split at h
  · simp at h
  rename_i b inner hdw
  split at h
  rotate_left
  · simp at h
  rename_i hb
  split at h
  rotate_left
  · simp at h
  rename_i p hsp
  simp only [Bool.and_eq_true] at h
  obtain ⟨t, hcs⟩ := isPrefixOf_ex hc
  rw [drop_of_eq_app hcs (by decide)] at hdw
  obtain ⟨a2, b2, hreg, hl, hr⟩ := hasWBFrom_decomp p.1 (some '{') h.1
  have hbrace : InternalWB v ('{' :: inner) :=
    braceRegion_internal ⟨p.1, by rw [hsp], hreg⟩ hl hr
  have h1 : InternalWB v (b :: inner) := by rw [hb]; exact hbrace
  have h2 : InternalWB v t := by
    nth_rewrite 1 [← List.takeWhile_append_dropWhile isPySpace t]
    rw [hdw]
    exact h1.app _
  rw [hcs]
  exact h2.app constLit

theorem p3At_internal {v cs : List Char} (h : p3At v cs = true) : InternalWB v cs := by
  unfold p3At at h
  split at h
  rotate_left
  · simp at h
  rename_i hc
  split at h
  · simp at h
  rename_i b r2 hdw
  split at h
  rotate_left
  · simp at h
  rename_i hb
  simp only [] at h
  split at h
  rotate_left
  · simp at h
  rename_i has
  obtain ⟨t, hcs⟩ := isPrefixOf_ex hc
  rw [drop_of_eq_app hcs (by decide)] at hdw
  obtain ⟨u2, hu2⟩ := isPrefixOf_ex has
  rw [drop_of_eq_app hu2 (by decide)] at h
  simp only [Bool.and_eq_true, Bool.not_eq_true'] at h
  obtain ⟨⟨hw3e, hpre⟩, hw4e, _⟩ := h
  have hw3 := ne_nil_of_isEmpty_false hw3e
  obtain ⟨r5, hr5⟩ := isPrefixOf_ex hpre
  rw [drop_of_eq_app hr5 rfl] at hw4e
  have hw4 := ne_nil_of_isEmpty_false hw4e
  obtain ⟨d, hd⟩ := lastOpt_some_of_ne hw3
  have hdword : isWordChar d = false :=
    space_not_word (List.mem_takeWhile_imp (lastOpt_mem hd))
  obtain ⟨e, u3, he, hes⟩ := takeWhile_ne_nil hw4
  have hu2dec : InternalWB v u2 := by
    refine ⟨u2.takeWhile isPySpace, r5, ?_, ⟨d, hd, hdword⟩, ?_⟩
    · nth_rewrite 1 [← List.takeWhile_append_dropWhile isPySpace u2]
      rw [hr5]
      simp [List.append_assoc]
    · rw [he]
      simpa [rightOk] using space_not_word hes
  have hdwl : InternalWB v (r2.dropWhile isPySpace) := by
    rw [hu2]
    exact hu2dec.app _
  have hr2 : InternalWB v r2 := by
    nth_rewrite 1 [← List.takeWhile_append_dropWhile isPySpace r2]
    exact hdwl.app _
  have hbr : InternalWB v (b :: r2) := hr2.cons b
  have ht : InternalWB v t := by
    nth_rewrite 1 [← List.takeWhile_append_dropWhile isPySpace t]
    rw [hdw]
    exact hbr.app _
  rw [hcs]
  exact ht.app impLit

theorem declWsScan_internal {v : List Char} :
    ∀ r, declWsScan v r = true → InternalWB v r := by
  intro r
  induction r with
  | nil => intro h; simp [declWsScan] at h
  | cons c cs ih =>
    intro h
    simp only [declWsScan, Bool.and_eq_true, Bool.or_eq_true] at h
    obtain ⟨hcsp, h⟩ := h
    rcases h with h | h
    · obtain ⟨a2, b2, hreg, hl, hr⟩ :=
        hasWBFrom_decomp (cs.takeWhile (fun d => !(d = '\n'))) (some c) h
      have hcs : cs = a2 ++ v ++ (b2 ++ cs.dropWhile (fun d => !(d = '\n'))) := by
        nth_rewrite 1 [← List.takeWhile_append_dropWhile (fun d => !(d = '\n')) cs]
        rw [hreg]
        simp [List.append_assoc]
      have hlast : ∃ d, lastOpt (c :: a2) = some d ∧ isWordChar d = false := by
        cases hla : lastOpt a2 with
        | none =>
          rw [lastOpt_eq_none hla]
          exact ⟨c, rfl, space_not_word hcsp⟩
        | some d =>
          refine ⟨d, ?_, ?_⟩
          · rw [lastOpt_cons_ne]
            · exact hla
            · intro he; rw [he] at hla; simp [lastOpt] at hla
          · simpa [leftOk, hla] using hl
      obtain ⟨d, hd, hdword⟩ := hlast
      have hgoal : c :: cs = (c :: a2) ++ v ++ (b2 ++ cs.dropWhile (fun d => !(d = '\n'))) := by
        conv_lhs => rw [hcs]
        simp [List.append_assoc]
      refine ⟨c :: a2, b2 ++ cs.dropWhile (fun d => !(d = '\n')), hgoal, ⟨d, hd, hdword⟩, ?_⟩
      refine rightOk_app hr ?_
      cases hdr : cs.dropWhile (fun d => !(d = '\n')) with
      | nil => simp [rightOk]
      | cons f u =>
        have hf : (fun d => !(d = '\n')) f = false := dropWhile_head_not hdr
        have hf2 : f = '\n' := by simpa using hf
        rw [hf2]
        have : isWordChar '\n' = false := by decide
        simp [rightOk, this]
    · exact (ih h).cons c

theorem declAt_internal {v line : List Char} (h : declAt v line = true) : InternalWB v line := by
  unfold declAt at h
  cases hk : declKw (line.dropWhile isPySpace) with
  | none => rw [hk] at h; simp at h
  | some r =>
    rw [hk] at h
    have hdec : ∃ kw, line.dropWhile isPySpace = kw ++ r := by
      unfold declKw at hk
      by_cases h1 : constLit.isPrefixOf (line.dropWhile isPySpace) = true
      · rw [if_pos h1] at hk
        obtain ⟨t, ht⟩ := isPrefixOf_ex h1
        refine ⟨constLit, ?_⟩
        rw [ht]
        simp only [Option.some.injEq] at hk
        rw [← hk, drop_of_eq_app ht (by decide)]
      · rw [if_neg h1] at hk
        by_cases h2 : ("let").toList.isPrefixOf (line.dropWhile isPySpace) = true
        · rw [if_pos h2] at hk
          obtain ⟨t, ht⟩ := isPrefixOf_ex h2
          refine ⟨("let").toList, ?_⟩
          rw [ht]
          simp only [Option.some.injEq] at hk
          rw [← hk, drop_of_eq_app ht (by decide)]
        · rw [if_neg h2] at hk
          by_cases h3 : ("var").toList.isPrefixOf (line.dropWhile isPySpace) = true
          · rw [if_pos h3] at hk
            obtain ⟨t, ht⟩ := isPrefixOf_ex h3
            refine ⟨("var").toList, ?_⟩
            rw [ht]
            simp only [Option.some.injEq] at hk
            rw [← hk, drop_of_eq_app ht (by decide)]
          · rw [if_neg h3] at hk; simp at hk
    obtain ⟨kw, hkw⟩ := hdec
    have h2 : InternalWB v r := declWsScan_internal r h
    have h3 : InternalWB v (line.dropWhile isPySpace) := by
      rw [hkw]; exact h2.app kw
    have h4 : InternalWB v line := by
      nth_rewrite 1 [← List.takeWhile_append_dropWhile isPySpace line]
      exact h3.app _
    exact h4

theorem p1_internal {v : List Char} : ∀ s, p1 v s = true → InternalWB v s := by
  intro s
  induction s with
  | nil => intro h; simp [p1] at h
  | cons c cs ih =>
    intro h
    simp only [p1, Bool.or_eq_true] at h
    rcases h with h | h
    · exact p1At_internal h
    · exact (ih h).cons c

theorem p2_internal {v : List Char} : ∀ s, p2 v s = true → InternalWB v s := by
  intro s
  induction s with
  | nil => intro h; simp [p2] at h
  | cons c cs ih =>
    intro h
    simp only [p2, Bool.or_eq_true] at h
    rcases h with h | h
    · exact p2At_internal h
    · exact (ih h).cons c

theorem p3_internal {v : List Char} : ∀ s, p3 v s = true → InternalWB v s := by
  intro s
  induction s with
  | nil => intro h; simp [p3] at h
  | cons c cs ih =>
    intro h
    simp only [p3, Bool.or_eq_true] at h
    rcases h with h | h
    · exact p3At_internal h
    · exact (ih h).cons c

theorem destrSearch_internal {v : List Char} : ∀ s, destrSearch v s = true → InternalWB v s := by
  intro s
  induction s with
  | nil => intro h; simp [destrSearch] at h
  | cons c cs ih =>
    intro h
    simp only [destrSearch, Bool.or_eq_true] at h
    rcases h with h | h
    · exact destrAt_internal h
    · exact (ih h).cons c

/-! ### Lines without a word-bounded occurrence are left alone -/

theorem p1_false_of_noWB {v line : List Char} (hv : v ≠ [])
    (h : hasWBFrom v none line = false) : p1 v line = false := by
  cases hp : p1 v line with
  | false => rfl
  | true =>
    rw [(p1_internal line hp).toWB hv none] at h
    exact absurd h (by simp)

theorem p2_false_of_noWB {v line : List Char} (hv : v ≠ [])
    (h : hasWBFrom v none line = false) : p2 v line = false := by
  cases hp : p2 v line with
  | false => rfl
  | true =>
    rw [(p2_internal line hp).toWB hv none] at h
    exact absurd h (by simp)

theorem p3_false_of_noWB {v line : List Char} (hv : v ≠ [])
    (h : hasWBFrom v none line = false) : p3 v line = false := by
  cases hp : p3 v line with
  | false => rfl
  | true =>
    rw [(p3_internal line hp).toWB hv none] at h
    exact absurd h (by simp)

theorem destrSearch_false_of_noWB {v line : List Char} (hv : v ≠ [])
    (h : hasWBFrom v none line = false) : destrSearch v line = false := by
  cases hp : destrSearch v line with
  | false => rfl
  | true =>
    rw [(destrSearch_internal line hp).toWB hv none] at h
    exact absurd h (by simp)

theorem declAt_false_of_noWB {v line : List Char} (hv : v ≠ [])
    (h : hasWBFrom v none line = false) : declAt v line = false := by
  cases hp : declAt v line with
  | false => rfl
  | true =>
    rw [(declAt_internal hp).toWB hv none] at h
    exact absurd h (by simp)

theorem processLine_of_nomatch {v line : List Char}
    (h1 : p1 v line = false) (h2 : p2 v line = false) (h3 : p3 v line = false)
    (h4 : destrSearch v line = false) : processLine v line = (some line, false) := by
  simp [processLine, h1, h2, h3, h4]

theorem processLine_of_noWB {v line : List Char} (hv : v ≠ [])
    (h : hasWBFrom v none line = false) : processLine v line = (some line, false) := by
  have h1 := p1_false_of_noWB hv h
  have h2 := p2_false_of_noWB hv h
  have h3 := p3_false_of_noWB hv h
  have h5 := declAt_false_of_noWB hv h
  simp [processLine, h1, h2, h3, h5]

theorem fixLines_of_nomatch {v : List Char} :
    ∀ lines : List (List Char),
      (∀ l ∈ lines, p1 v l = false ∧ p2 v l = false ∧ p3 v l = false ∧ destrSearch v l = false) →
      fixLines v lines = (lines, false) := by
  intro lines
  induction lines with
  | nil => intro _; rfl
  | cons l ls ih =>
    intro hall
    have hl := hall l (by simp)
    have hr := ih (fun x hx => hall x (by simp [hx]))
    simp [fixLines, processLine_of_nomatch hl.1 hl.2.1 hl.2.2.1 hl.2.2.2, hr]

/-- Claim C6 — a line in which the identifier does not occur in any of the
four recognized import/declaration shapes (the named-import, default-import,
namespace-import and destructuring patterns of the source) is emitted
unchanged, and a list of such lines is returned verbatim, each line at its
original position, with no modification reported. -/
theorem c6_unrecognized_line_unchanged :
    (∀ (v line : List Char), p1 v line = false → p2 v line = false → p3 v line = false →
      destrSearch v line = false → processLine v line = (some line, false)) ∧
    (∀ (v : List Char) (lines : List (List Char)),
      (∀ l ∈ lines, p1 v l = false ∧ p2 v l = false ∧ p3 v l = false ∧ destrSearch v l = false) →
      fixLines v lines = (lines, false)) :=
  ⟨fun _ _ h1 h2 h3 h4 => processLine_of_nomatch h1 h2 h3 h4,
   fun _ _ hall => fixLines_of_nomatch _ hall⟩

/-- Witness for C6 at a concrete line that matches none of the shapes. -/
theorem c6_witness :
    processLine ("foo").toList (("const x = foo1;").toList) =
      (some (("const x = foo1;").toList), false) :=
  c6_unrecognized_line_unchanged.1 _ _ (by decide) (by decide) (by decide) (by decide)

/-- Claim C9 — identifier matching respects word boundaries: when the
identifier has no word-bounded occurrence in the line (in particular when it
occurs only as a proper substring of a longer identifier), the line editor
leaves the line unchanged and removes nothing. -/
theorem c9_word_boundary {v line : List Char} (hv : IsIdent v)
    (h : hasWBFrom v none line = false) : processLine v line = (some line, false) :=
  processLine_of_noWB hv.1 h

/-- Witness for C9: target `foo` against a line whose only occurrence of
`foo` is inside the longer identifier `foobar`. -/
theorem c9_witness :
    processLine ("foo").toList (("import { foobar } from 'x';").toList) =
      (some (("import { foobar } from 'x';").toList), false) :=
  c9_word_boundary ⟨by decide, by decide⟩ (by decide)

/-! ### The diagnostic parser -/

theorem isEmpty_false_of_ne {l : List Char} (h : l ≠ []) : l.isEmpty = false := by
  cases l with
  | nil => exact absurd rfl h
  | cons c t => rfl

theorem splitAtFirst_here {term l : List Char} (h : term.isPrefixOf l = true) :
    splitAtFirst term l = some ([], l.drop term.length) := by
  cases l with
  | nil =>
    cases term with
    | nil => rfl
    | cons c cs => simp [List.isPrefixOf] at h
  | cons c cs =>
    unfold splitAtFirst
    rw [if_pos h]

theorem splitAtFirst_sound {term : List Char} :
    ∀ (l p q : List Char), splitAtFirst term l = some (p, q) → l = p ++ term ++ q := by
  intro l
  induction l with
  | nil =>
    intro p q h
    unfold splitAtFirst at h
    by_cases ht : term.isEmpty = true
    · rw [if_pos ht] at h
      simp only [Option.some.injEq, Prod.mk.injEq] at h
      rw [← h.1, ← h.2]
      have : term = [] := by
        cases term with
        | nil => rfl
        | cons a as => simp [List.isEmpty] at ht
      simp [this]
    · rw [if_neg ht] at h; simp at h
  | cons c cs ih =>
    intro p q h
    unfold splitAtFirst at h
    by_cases hp : term.isPrefixOf (c :: cs) = true
    · rw [if_pos hp] at h
      simp only [Option.some.injEq, Prod.mk.injEq] at h
      obtain ⟨t, ht⟩ := isPrefixOf_ex hp
      rw [← h.1, ← h.2, ht, List.drop_left]
      simp
    · rw [if_neg hp] at h
      by_cases hn : c = '\n'
      · rw [if_pos hn] at h; simp at h
      · rw [if_neg hn] at h
        cases hr : splitAtFirst term cs with
        | none => rw [hr] at h; simp at h
        | some p0 =>
          rw [hr] at h
          simp only [Option.some.injEq, Prod.mk.injEq] at h
          rw [← h.1, ← h.2]
          simpa using ih p0.1 p0.2 (by simp [hr])

theorem splitAtFirst_complete :
    ∀ (v tail : List Char), (∀ c ∈ v, c ≠ '\'' ∧ c ≠ '\n') →
      splitAtFirst errTerm (v ++ errTerm ++ tail) = some (v, tail) := by
  intro v
  induction v with
  | nil =>
    intro tail _
    have h := splitAtFirst_here (l := errTerm ++ tail) (isPrefixOf_app errTerm tail)
    rw [List.drop_left] at h
    simpa using h
  | cons c v2 ih =>
    intro tail hc
    have hc1 : c ≠ '\'' := (hc c (by simp)).1
    have hc2 : c ≠ '\n' := (hc c (by simp)).2
    have he : errTerm = '\'' :: (" is declared but its value is never read.").toList := by decide
    have hstep : (c :: v2) ++ errTerm ++ tail = c :: (v2 ++ errTerm ++ tail) := by simp
    rw [hstep]
    unfold splitAtFirst
    rw [if_neg, if_neg hc2]
    · rw [ih tail (fun d hd => hc d (by simp [hd]))]
    · intro hp
      rw [he] at hp
      simp only [List.isPrefixOf, Bool.and_eq_true, beq_iff_eq] at hp
      exact hc1 hp.1.symm

theorem matchAfterFile_ne {c : Char} {z : List Char} (hc : c ≠ '(') :
    matchAfterFile (c :: z) = none := by
  unfold matchAfterFile
  simp [hc]

theorem matchAfterFile_complete (d1 d2 v tail : List Char)
    (h1 : d1 ≠ []) (h1d : ∀ c ∈ d1, c.isDigit = true)
    (h2 : d2 ≠ []) (h2d : ∀ c ∈ d2, c.isDigit = true)
    (hv : ∀ c ∈ v, c ≠ '\'' ∧ c ≠ '\n') :
    matchAfterFile ('(' :: (d1 ++ ',' :: (d2 ++ ')' :: (errMid ++ v ++ errTerm ++ tail)))) =
      some (d1, d2, v) := by
  have hcomma : (',').isDigit = false := by decide
  have hparen : (')').isDigit = false := by decide
  have e1 := takeWhile_app_sat d1 ',' (d2 ++ ')' :: (errMid ++ v ++ errTerm ++ tail)) h1d hcomma
  have e2 := takeWhile_app_sat d2 ')' (errMid ++ v ++ errTerm ++ tail) h2d hparen
  have hassoc : errMid ++ v ++ errTerm ++ tail = errMid ++ (v ++ errTerm ++ tail) := by
    simp [List.append_assoc]
  have e3 : (errMid ++ v ++ errTerm ++ tail).drop errMid.length = v ++ errTerm ++ tail := by
    rw [hassoc, List.drop_left]
  have e4 : errMid.isPrefixOf (errMid ++ v ++ errTerm ++ tail) = true := by
    rw [hassoc]; exact isPrefixOf_app _ _
  have step1 : matchAfterFile
      ('(' :: (d1 ++ ',' :: (d2 ++ ')' :: (errMid ++ v ++ errTerm ++ tail)))) =
      matchLineGroup (d1 ++ ',' :: (d2 ++ ')' :: (errMid ++ v ++ errTerm ++ tail))) := by
    simp [matchAfterFile]
  rw [step1]
  unfold matchLineGroup
  rw [e1.1, e1.2, isEmpty_false_of_ne h1]
  show matchColGroup d1 (d2 ++ ')' :: (errMid ++ v ++ errTerm ++ tail)) = some (d1, d2, v)
  unfold matchColGroup
  rw [e2.1, e2.2, isEmpty_false_of_ne h2]
  show matchMid d1 d2 (errMid ++ v ++ errTerm ++ tail) = some (d1, d2, v)
  unfold matchMid
  rw [if_pos e4, e3, splitAtFirst_complete v tail hv]

theorem matchMid_sound {d1 d2 r5 dg1 dg2 v : List Char}
    (h : matchMid d1 d2 r5 = some (dg1, dg2, v)) :
    ∃ tail, r5 = errMid ++ v ++ errTerm ++ tail ∧ dg1 = d1 ∧ dg2 = d2 := by
  unfold matchMid at h
  split at h
  rotate_left
  · simp at h
  rename_i hmid
  split at h
  rotate_left
  · simp at h
  rename_i p hsp
  simp only [Option.some.injEq, Prod.mk.injEq] at h
  obtain ⟨z, hz⟩ := isPrefixOf_ex hmid
  rw [drop_of_eq_app hz rfl] at hsp
  have hzdec := splitAtFirst_sound z p.1 p.2 hsp
  refine ⟨p.2, ?_, h.1.symm, h.2.1.symm⟩
  rw [hz, hzdec, ← h.2.2]
  simp [List.append_assoc]

theorem matchColGroup_sound {d1 r3 dg1 dg2 v : List Char}
    (h : matchColGroup d1 r3 = some (dg1, dg2, v)) :
    ∃ tail, r3 = dg2 ++ ')' :: (errMid ++ v ++ errTerm ++ tail) ∧ dg1 = d1 ∧
      dg2 ≠ [] ∧ (∀ c ∈ dg2, c.isDigit = true) := by
  unfold matchColGroup at h
  split at h
  · simp at h
  rename_i he2
  split at h
  · simp at h
  rename_i c2 r5 hr4
  split at h
  rotate_left
  · simp at h
  rename_i hc2
  obtain ⟨tail, hr5, hd1, hd2⟩ := matchMid_sound h
  refine ⟨tail, ?_, hd1, ?_, ?_⟩
  · rw [← List.takeWhile_append_dropWhile Char.isDigit r3, hr4, hc2, hr5, hd2]
  · rw [hd2]
    intro hemp
    rw [hemp] at he2
    simp at he2
  · rw [hd2]
    intro c hc
    exact List.mem_takeWhile_imp hc

theorem matchLineGroup_sound {r1 dg1 dg2 v : List Char}
    (h : matchLineGroup r1 = some (dg1, dg2, v)) :
    ∃ tail, r1 = dg1 ++ ',' :: (dg2 ++ ')' :: (errMid ++ v ++ errTerm ++ tail)) ∧
      dg1 ≠ [] ∧ (∀ c ∈ dg1, c.isDigit = true) ∧ dg2 ≠ [] ∧ (∀ c ∈ dg2, c.isDigit = true) := by
  unfold matchLineGroup at h
  split at h
  · simp at h
  rename_i he1
  split at h
  · simp at h
  rename_i c1 r3 hr2
  split at h
  rotate_left
  · simp at h
  rename_i hc1
  obtain ⟨tail, hr3, hd1, hd2ne, hd2d⟩ := matchColGroup_sound h
  refine ⟨tail, ?_, ?_, ?_, hd2ne, hd2d⟩
  · rw [← List.takeWhile_append_dropWhile Char.isDigit r1, hr2, hc1, hr3, hd1]
  · rw [hd1]
    intro hemp
    rw [hemp] at he1
    simp at he1
  · rw [hd1]
    intro c hc
    exact List.mem_takeWhile_imp hc

theorem matchAfterFile_sound {cs d1 d2 v : List Char}
    (h : matchAfterFile cs = some (d1, d2, v)) :
    ∃ tail, cs = '(' :: (d1 ++ ',' :: (d2 ++ ')' :: (errMid ++ v ++ errTerm ++ tail))) ∧
      d1 ≠ [] ∧ (∀ c ∈ d1, c.isDigit = true) ∧ d2 ≠ [] ∧ (∀ c ∈ d2, c.isDigit = true) := by
  unfold matchAfterFile at h
  split at h
  · simp at h
  rename_i c0 r1
  split at h
  rotate_left
  · simp at h
  rename_i hc0
  obtain ⟨tail, hr1, hd1ne, hd1d, hd2ne, hd2d⟩ := matchLineGroup_sound h
  exact ⟨tail, by rw [hc0, hr1], hd1ne, hd1d, hd2ne, hd2d⟩

theorem scanTS_complete :
    ∀ (f : List Char) (acc rest : List Char) (g : List Char × List Char × List Char),
      (∀ c ∈ f, c ≠ '(' ∧ c ≠ '\n') → matchAfterFile rest = some g →
      scanTS acc (f ++ rest) = some (acc.reverse ++ f, g.1, g.2.1, g.2.2) := by
  intro f
  induction f with
  | nil =>
    intro acc rest g _ hm
    cases rest with
    | nil => rw [show matchAfterFile [] = none from rfl] at hm; simp at hm
    | cons c cs =>
      show scanTS acc (c :: cs) = _
      unfold scanTS
      rw [hm]
      simp
  | cons c f2 ih =>
    intro acc rest g hf hm
    have hc1 : c ≠ '(' := (hf c (by simp)).1
    have hc2 : c ≠ '\n' := (hf c (by simp)).2
    show scanTS acc (c :: (f2 ++ rest)) = _
    unfold scanTS
    rw [matchAfterFile_ne hc1, if_neg hc2, ih (c :: acc) rest g (fun d hd => hf d (by simp [hd])) hm]
    simp

theorem scanTS_sound :
    ∀ (s acc : List Char) (f d1 d2 v : List Char),
      scanTS acc s = some (f, d1, d2, v) →
      ∃ pre rest, s = pre ++ rest ∧ f = acc.reverse ++ pre ∧
        matchAfterFile rest = some (d1, d2, v) := by
  intro s
  induction s with
  | nil => intro acc f d1 d2 v h; simp [scanTS] at h
  | cons c cs ih =>
    intro acc f d1 d2 v h
    unfold scanTS at h
    cases hm : matchAfterFile (c :: cs) with
    | some g =>
      rw [hm] at h
      simp only [Option.some.injEq, Prod.mk.injEq] at h
      refine ⟨[], c :: cs, by simp, by simp [← h.1], ?_⟩
      rw [hm, ← h.2.1, ← h.2.2.1, ← h.2.2.2]
    | none =>
      rw [hm] at h
      by_cases hn : c = '\n'
      · rw [if_pos hn] at h; simp at h
      · rw [if_neg hn] at h
        obtain ⟨pre, rest, hcs, hfe, hm2⟩ := ih (c :: acc) f d1 d2 v h
        refine ⟨c :: pre, rest, by simp [hcs], ?_, hm2⟩
        rw [hfe]
        simp

theorem parseLoop_app :
    ∀ (ls : List (List Char)) (acc : List TSError),
      parseLoop ls acc = acc ++ ls.filterMap matchTS6133 := by
  intro ls
  induction ls with
  | nil => intro acc; simp [parseLoop]
  | cons l ls2 ih =>
    intro acc
    cases hm : matchTS6133 l <;> simp [parseLoop, hm, ih, List.filterMap_cons]

/-- Claim C1 — for a diagnostic line matching the TS6133 pattern the parser
extracts the file, line, column and identifier exactly as written: any line
built as `file(line,col): error TS6133: 'ident' is declared but its value is
never read.` (plus arbitrary trailing text), with a parenthesis-free file
part, nonempty digit groups and an apostrophe-free identifier, parses to
exactly those fields; and the concrete example line of the specification
yields `{file := "src/a.ts", line := 10, col := 5, var := "foo"}`. -/
theorem c1_parse_extracts :
    (∀ (f d1 d2 v tail : List Char),
      (∀ c ∈ f, c ≠ '(' ∧ c ≠ '\n') →
      d1 ≠ [] → (∀ c ∈ d1, c.isDigit = true) →
      d2 ≠ [] → (∀ c ∈ d2, c.isDigit = true) →
      (∀ c ∈ v, c ≠ '\'' ∧ c ≠ '\n') →
      matchTS6133 (f ++ '(' :: (d1 ++ ',' :: (d2 ++ ')' :: (errMid ++ v ++ errTerm ++ tail)))) =
        some ⟨f, digitsVal d1, digitsVal d2, v⟩) ∧
    parse_unused_errors
        ("src/a.ts(10,5): error TS6133: 'foo' is declared but its value is never read.").toList =
      [⟨("src/a.ts").toList, 10, 5, ("foo").toList⟩] := by
  constructor
  · intro f d1 d2 v tail hf h1 h1d h2 h2d hv
    have hm := matchAfterFile_complete d1 d2 v tail h1 h1d h2 h2d hv
    have hs := scanTS_complete f []
      ('(' :: (d1 ++ ',' :: (d2 ++ ')' :: (errMid ++ v ++ errTerm ++ tail)))) (d1, d2, v) hf hm
    unfold matchTS6133
    rw [hs]
    simp
  · decide

/-- Witness for C1: the general part applied to the pieces of the concrete
example line (with empty trailing text). -/
theorem c1_witness :
    matchTS6133 (("src/a.ts").toList ++ '(' :: (("10").toList ++ ',' ::
        (("5").toList ++ ')' :: (errMid ++ ("foo").toList ++ errTerm ++ [])))) =
      some ⟨("src/a.ts").toList, digitsVal ("10").toList, digitsVal ("5").toList, ("foo").toList⟩ :=
  c1_parse_extracts.1 _ _ _ _ _ (by decide) (by decide) (by decide) (by decide) (by decide)
    (by decide)

/-- Counterexample for C3 — the claim says a line with extra trailing text
after the final period produces no record; `re.match` does not anchor the end
of the line, so the code produces a record for it. -/
theorem c3_counterexample :
    parse_unused_errors
        ("src/a.ts(10,5): error TS6133: 'foo' is declared but its value is never read. EXTRA").toList =
      [⟨("src/a.ts").toList, 10, 5, ("foo").toList⟩] ∧
    parse_unused_errors
        ("src/a.ts(10,5): error TS6133: 'foo' is declared but its value is never read. EXTRA").toList ≠
      [] := by
  constructor
  · decide
  · decide

/-- Claim C3, amended — `parse_unused_errors` recognizes a line exactly when
a prefix of it has the shape `file(line,col): error TS6133: 'ident' is
declared but its value is never read.` (trailing text after the period is
allowed); unrecognized lines contribute no record, and the records appear in
input line order: the result is the `filterMap` of the per-line matcher over
the split lines, and every produced record decomposes its line in that shape. -/
theorem c3_amended :
    (∀ s : List Char, parse_unused_errors s = (splitNL s).filterMap matchTS6133) ∧
    (∀ (l : List Char) (e : TSError), matchTS6133 l = some e →
      ∃ (d1 d2 tail : List Char),
        l = e.file ++ '(' :: (d1 ++ ',' :: (d2 ++ ')' :: (errMid ++ e.var ++ errTerm ++ tail))) ∧
        d1 ≠ [] ∧ (∀ c ∈ d1, c.isDigit = true) ∧ e.line = digitsVal d1 ∧
        d2 ≠ [] ∧ (∀ c ∈ d2, c.isDigit = true) ∧ e.col = digitsVal d2) := by
  constructor
  · intro s
    unfold parse_unused_errors
    rw [parseLoop_app]
    simp
  · intro l e h
    unfold matchTS6133 at h
    cases hs : scanTS [] l with
    | none => rw [hs] at h; simp at h
    | some g =>
      rw [hs] at h
      simp only [Option.some.injEq] at h
      obtain ⟨pre, rest, hl, hf, hm⟩ := scanTS_sound l [] g.1 g.2.1 g.2.2.1 g.2.2.2 (by rw [hs])
      obtain ⟨tail, hrest, hd1, hd1d, hd2, hd2d⟩ := matchAfterFile_sound hm
      refine ⟨g.2.1, g.2.2.1, tail, ?_, hd1, hd1d, ?_, hd2, hd2d, ?_⟩
      · rw [hl, hrest, ← h]
        simp only [List.reverse_nil, List.nil_append] at hf
        rw [hf]
      · rw [← h]
      · rw [← h]

/-- Witness for the amended C3 at the trailing-text line. -/
theorem c3_witness :
    ∃ (d1 d2 tail : List Char),
      ("src/a.ts(10,5): error TS6133: 'foo' is declared but its value is never read. EXTRA").toList =
        ("src/a.ts").toList ++ '(' :: (d1 ++ ',' :: (d2 ++ ')' ::
          (errMid ++ ("foo").toList ++ errTerm ++ tail))) ∧
      d1 ≠ [] ∧ (∀ c ∈ d1, c.isDigit = true) ∧ (10 : Nat) = digitsVal d1 ∧
      d2 ≠ [] ∧ (∀ c ∈ d2, c.isDigit = true) ∧ (5 : Nat) = digitsVal d2 :=
  c3_amended.2
    (("src/a.ts(10,5): error TS6133: 'foo' is declared but its value is never read. EXTRA").toList)
    ⟨("src/a.ts").toList, 10, 5, ("foo").toList⟩ (by decide)

/-! ### The `\bV\b` substitution leaves no word-bounded occurrence behind -/

theorem lastOr_cons (d : Char) (w : List Char) (p : Option Char) :
    lastOr (d :: w) p = lastOr w (some d) := by
  cases w with
  | nil => simp [lastOr, lastOpt]
  | cons b t =>
    cases hl : lastOpt (b :: t) with
    | none => exact absurd (lastOpt_eq_none hl) (List.cons_ne_nil b t)
    | some a =>
      have h2 : lastOpt (d :: b :: t) = lastOpt (b :: t) := lastOpt_cons_ne (List.cons_ne_nil b t)
      simp [lastOr, h2, hl]

theorem sub3Go_skip (v : List Char) :
    ∀ (w t : List Char) (p : Option Char),
      sub3Go v w.length p (w ++ t) = sub3Go v 0 (lastOr w p) t := by
  intro w
  induction w with
  | nil => intro t p; simp [lastOr, lastOpt]
  | cons a w2 ih =>
    intro t p
    have h1 : sub3Go v (a :: w2).length p ((a :: w2) ++ t) =
        sub3Go v w2.length (some a) (w2 ++ t) := rfl
    rw [h1, ih t (some a), lastOr_cons]

theorem sub3Go_word_copy {v : List Char} :
    ∀ (w : List Char) (p : Char) (s : List Char),
      (∀ c ∈ w, isWordChar c = true) → isWordChar p = true →
      w.isPrefixOf (sub3Go v 0 (some p) s) = true →
      w.isPrefixOf s = true ∧
        sub3Go v 0 (some p) s = w ++ sub3Go v 0 (lastOr w (some p)) (s.drop w.length) := by
  intro w
  induction w with
  | nil =>
    intro p s _ _ _
    constructor
    · cases s <;> simp [List.isPrefixOf]
    · simp [lastOr, lastOpt]
  | cons d w2 ih =>
    intro p s hall hp hpre
    cases s with
    | nil =>
      rw [show sub3Go v 0 (some p) [] = [] from rfl] at hpre
      simp [List.isPrefixOf] at hpre
    | cons e t =>
      have hb : boundedAt v (some p) (e :: t) = false := by
        simp [boundedAt, prevOk, hp]
      have hcopy : sub3Go v 0 (some p) (e :: t) = e :: sub3Go v 0 (some e) t := by
        simp [sub3Go, hb]
      rw [hcopy] at hpre
      simp only [List.isPrefixOf, Bool.and_eq_true, beq_iff_eq] at hpre
      obtain ⟨hde, hpre2⟩ := hpre
      have hd : isWordChar d = true := hall d (by simp)
      have he : isWordChar e = true := by rw [← hde]; exact hd
      obtain ⟨hw2pre, hw2eq⟩ := ih e t (fun c hc => hall c (by simp [hc])) he hpre2
      constructor
      · simp [List.isPrefixOf, hde, hw2pre]
      · rw [hcopy, hw2eq, lastOr_cons, hde]
        simp

theorem noWB_sub3 {v : List Char} (hv : IsIdent v) :
    ∀ (n : Nat) (s : List Char), s.length ≤ n → ∀ (prev : Option Char),
      hasWBFrom v prev (sub3Go v 0 prev s) = false := by
  obtain ⟨v0, v2, hv0⟩ : ∃ v0 v2, v = v0 :: v2 := by
    cases v with
    | nil => exact absurd rfl hv.1
    | cons a b => exact ⟨a, b, rfl⟩
  have hv0w : isWordChar v0 = true := hv.2 v0 (by rw [hv0]; simp)
  intro n
  induction n with
  | zero =>
    intro s hs prev
    have h0 : s = [] := List.eq_nil_of_length_eq_zero (Nat.le_zero.mp hs)
    rw [h0]
    rfl
  | succ n ih =>
    intro s hs prev
    cases s with
    | nil => rfl
    | cons c cs =>
      have hlen : cs.length ≤ n := by
        have := hs
        simp only [List.length_cons] at this
        omega
      by_cases hb : boundedAt v prev (c :: cs) = true
      · have hstep : sub3Go v 0 prev (c :: cs) = sub3Go v (v.length - 1) (some c) cs := by
          simp [sub3Go, hb]
        have hband := hb
        simp only [boundedAt, Bool.and_eq_true] at hband
        obtain ⟨⟨hpre, _⟩, hro⟩ := hband
        obtain ⟨t, ht⟩ := isPrefixOf_ex hpre
        have hcveq : c = v0 ∧ cs = v2 ++ t := by
          rw [hv0] at ht
          simp only [List.cons_append, List.cons.injEq] at ht
          exact ht
        have hlen1 : v.length - 1 = v2.length := by rw [hv0]; simp
        have hskip : sub3Go v (v.length - 1) (some c) cs = sub3Go v 0 (lastOr v2 (some c)) t := by
          rw [hlen1, hcveq.2]
          exact sub3Go_skip v v2 t (some c)
        obtain ⟨lc, hlc, hlcw⟩ : ∃ lc, lastOr v2 (some c) = some lc ∧ isWordChar lc = true := by
          cases hlo : lastOpt v2 with
          | none =>
            refine ⟨c, by simp [lastOr, hlo], ?_⟩
            rw [hcveq.1]
            exact hv0w
          | some a =>
            exact ⟨a, by simp [lastOr, hlo], hv.2 a (by rw [hv0]; simp [lastOpt_mem hlo])⟩
        have hrt : rightOk t = true := by
          rw [ht, List.drop_left] at hro
          exact hro
        rw [hstep, hskip, hlc]
        cases t with
        | nil => rfl
        | cons d t2 =>
          have hdnw : isWordChar d = false := by simpa [rightOk] using hrt
          have hb2 : boundedAt v (some lc) (d :: t2) = false := by
            simp [boundedAt, prevOk, hlcw]
          have hstep2 : sub3Go v 0 (some lc) (d :: t2) = d :: sub3Go v 0 (some d) t2 := by
            simp [sub3Go, hb2]
          rw [hstep2]
          have hlen2 : t2.length ≤ n := by
            have h1 : cs.length = v2.length + (t2.length + 1) := by
              rw [hcveq.2]
              simp
            omega
          have hIH := ih t2 hlen2 (some d)
          simp only [hasWBFrom, Bool.or_eq_false_iff]
          refine ⟨?_, hIH⟩
          simp only [boundedAt]
          have hnp : v.isPrefixOf (d :: sub3Go v 0 (some d) t2) = false := by
            rw [hv0]
            simp only [List.isPrefixOf, Bool.and_eq_false_iff]
            left
            simp only [beq_eq_false_iff_ne, ne_eq]
            intro hvd
            rw [hvd] at hv0w
            rw [hv0w] at hdnw
            exact absurd hdnw (by simp)
          rw [hnp]
          simp
      · have hnb : boundedAt v prev (c :: cs) = false := by
          cases hx : boundedAt v prev (c :: cs) with
          | false => rfl
          | true => exact absurd hx hb
        have hstep : sub3Go v 0 prev (c :: cs) = c :: sub3Go v 0 (some c) cs := by
          simp [sub3Go, hnb]
        rw [hstep]
        have hIH := ih cs hlen (some c)
        simp only [hasWBFrom, Bool.or_eq_false_iff]
        refine ⟨?_, hIH⟩
        cases hbR : boundedAt v prev (c :: sub3Go v 0 (some c) cs) with
        | false => rfl
        | true =>
          exfalso
          simp only [boundedAt, Bool.and_eq_true] at hbR
          obtain ⟨⟨hpre2, hprev2⟩, hro2⟩ := hbR
          rw [hv0] at hpre2
          simp only [List.isPrefixOf, Bool.and_eq_true, beq_iff_eq] at hpre2
          obtain ⟨hv0c, hv2pre⟩ := hpre2
          have hcword : isWordChar c = true := by rw [← hv0c]; exact hv0w
          obtain ⟨hv2s, heq⟩ :=
            sub3Go_word_copy v2 c cs (fun x hx => hv.2 x (by rw [hv0]; simp [hx])) hcword hv2pre
          rw [← hv0] at heq
          obtain ⟨lc, hlc, hlcw⟩ : ∃ lc, lastOr v2 (some c) = some lc ∧ isWordChar lc = true := by
            cases hlo : lastOpt v2 with
            | none => exact ⟨c, by simp [lastOr, hlo], hcword⟩
            | some a =>
              exact ⟨a, by simp [lastOr, hlo], hv.2 a (by rw [hv0]; simp [lastOpt_mem hlo])⟩
          apply hb
          simp only [boundedAt, Bool.and_eq_true]
          refine ⟨⟨?_, hprev2⟩, ?_⟩
          · rw [hv0]
            simp [List.isPrefixOf, hv0c, hv2s]
          · have hvlen : v.length = v2.length + 1 := by rw [hv0]; simp
            have hdropR : (c :: sub3Go v 0 (some c) cs).drop v.length =
                sub3Go v 0 (lastOr v2 (some c)) (cs.drop v2.length) := by
              rw [hvlen]
              show (sub3Go v 0 (some c) cs).drop v2.length = _
              rw [heq, List.drop_left]
            rw [hdropR] at hro2
            have hdropC : (c :: cs).drop v.length = cs.drop v2.length := by
              rw [hvlen]
              rfl
            rw [hdropC]
            cases hK : cs.drop v2.length with
            | nil => rfl
            | cons f u =>
              rw [hK] at hro2
              have hbK : boundedAt v (some lc) (f :: u) = false := by
                simp [boundedAt, prevOk, hlcw]
              rw [hlc] at hro2
              have hstep3 : sub3Go v 0 (some lc) (f :: u) = f :: sub3Go v 0 (some f) u := by
                simp [sub3Go, hbK]
              rw [hstep3] at hro2
              simpa [rightOk] using hro2

/-! ### Concrete line edits: claims C2, C4, C5 -/

/-- Counterexample for C2 — for `import { foo, bar } from 'x';` with target
`foo` the claim says the rewritten line is exactly
`import { bar } from 'x';`; the substitution `\bfoo\s*,` removes `foo,` but
keeps both surrounding spaces, so the code produces a double space instead. -/
theorem c2_counterexample :
    processLine ("foo").toList (("import { foo, bar } from 'x';").toList) ≠
      (some (("import { bar } from 'x';").toList), true) := by decide

/-- Claim C2, amended — the identifier and one adjacent comma are stripped
from a named import list, but surrounding whitespace is kept, which can leave
a double space: `import { foo, bar } from 'x';` becomes
`import {  bar } from 'x';` (two spaces); and when the list becomes empty the
whole line is dropped: `import { foo } from 'x';` is removed. -/
theorem c2_amended :
    processLine ("foo").toList (("import { foo, bar } from 'x';").toList) =
      (some (("import {  bar } from 'x';").toList), true) ∧
    processLine ("foo").toList (("import { foo } from 'x';").toList) = (none, true) :=
  ⟨by decide, by decide⟩

/-- Claim C4 — a default import line binding the target identifier and a
namespace import line binding the target identifier are removed entirely:
`import foo from 'x';` and `import * as foo from 'x';` are both dropped for
target `foo`. -/
theorem c4_default_namespace_removed :
    processLine ("foo").toList (("import foo from 'x';").toList) = (none, true) ∧
    processLine ("foo").toList (("import * as foo from 'x';").toList) = (none, true) :=
  ⟨by decide, by decide⟩

/-- Counterexample for C5 — the claim says `const`, `let` or `var`
destructuring declarations containing the identifier are stripped; the
destructuring rewrite regex only mentions `const`, so the `let` line
`let { foo, bar } = obj;` (which contains the binding `foo`) is left
completely unchanged with no modification reported. -/
theorem c5_counterexample :
    processLine ("foo").toList (("let { foo, bar } = obj;").toList) =
      (some (("let { foo, bar } = obj;").toList), false) ∧
    subMem ("foo").toList (("let { foo, bar } = obj;").toList) = true :=
  ⟨by decide, by decide⟩

/-- Claim C5, amended — only `const` destructuring declarations are edited:
when the line is not handled by the import branch, the declaration search
matches and the `const` destructuring pattern matches, the identifier is
stripped (no word-bounded occurrence remains in the output) and the line is
kept, not dropped; `let`/`var` destructuring lines are left unchanged (see
the counterexample).  The concrete `const` example loses `foo`. -/
theorem c5_amended :
    (∀ (v line : List Char), IsIdent v →
      (subMem impLit line && subMem v line) = false →
      declAt v line = true → destrSearch v line = true →
      ∃ out, processLine v line = (some out, true) ∧ hasWBFrom v none out = false) ∧
    processLine ("foo").toList (("const { foo, bar } = obj;").toList) =
      (some (("const {  bar } = obj;").toList), true) := by
  constructor
  · intro v line hv hb hd hds
    refine ⟨sub3Go v 0 none (sub2Go v 0 none (sub1Go v 0 line)), ?_, ?_⟩
    · have hbn : ¬((subMem impLit line && subMem v line) = true) := by simp [hb]
      unfold processLine
      rw [if_neg hbn, if_pos hd, if_pos hds]
    · exact noWB_sub3 hv _ _ (le_refl _) none
  · decide

/-- Witness for the amended C5 at a concrete `const` destructuring line. -/
theorem c5_witness :
    ∃ out, processLine ("foo").toList (("const { foo, bar } = obj;").toList) =
      (some out, true) ∧ hasWBFrom ("foo").toList none out = false :=
  c5_amended.1 _ _ ⟨by decide, by decide⟩ (by decide) (by decide) (by decide)

/-! ### Idempotence of the rewrite -/

theorem matchEmptyImport_canon (b : List Char) :
    matchEmptyImport (emptyImportCanon ++ b) = some 14 := by
  cases b with
  | nil => rfl
  | cons c cs => rfl

theorem searchEmptyImport_canon :
    ∀ (a b : List Char), searchEmptyImport (a ++ emptyImportCanon ++ b) = true := by
  intro a
  induction a with
  | nil =>
    intro b
    cases b with
    | nil => rfl
    | cons c cs => rfl
  | cons c a2 ih =>
    intro b
    show searchEmptyImport (c :: (a2 ++ emptyImportCanon ++ b)) = true
    unfold searchEmptyImport
    rw [ih b]
    simp

theorem sub4_changed : ∀ (x : List Char), sub4Go 0 x ≠ x →
    ∃ a b, sub4Go 0 x = a ++ emptyImportCanon ++ b := by
  intro x
  induction x with
  | nil => intro h; exact absurd rfl h
  | cons c cs ih =>
    intro h
    cases hm : matchEmptyImport (c :: cs) with
    | some len =>
      refine ⟨[], sub4Go (len - 1) cs, ?_⟩
      simp [sub4Go, hm]
    | none =>
      have hstep : sub4Go 0 (c :: cs) = c :: sub4Go 0 cs := by simp [sub4Go, hm]
      rw [hstep] at h ⊢
      have h2 : sub4Go 0 cs ≠ cs := by
        intro he; rw [he] at h; exact h rfl
      obtain ⟨a, b, hab⟩ := ih h2
      exact ⟨c :: a, b, by simp [hab]⟩

theorem sub4_id_of_nosearch {x : List Char} (h : searchEmptyImport (sub4Go 0 x) = false) :
    sub4Go 0 x = x := by
  by_cases hx : sub4Go 0 x = x
  · exact hx
  · obtain ⟨a, b, hab⟩ := sub4_changed x hx
    rw [hab, searchEmptyImport_canon a b] at h
    exact absurd h (by simp)

theorem processLine_false_inv {v l : List Char} {o : Option (List Char)}
    (h : processLine v l = (o, false)) : o = some l := by
  by_cases h1 : (subMem impLit l && subMem v l) = true
  · by_cases h2 : p1 v l = true
    · by_cases h3 : searchEmptyImport
          (sub4Go 0 (sub3Go v 0 none (sub2Go v 0 none (sub1Go v 0 l)))) = true
      · simp [processLine, h1, h2, h3] at h
      · simp [processLine, h1, h2, h3] at h
    · by_cases h4 : p2 v l = true
      · simp [processLine, h1, h2, h4] at h
      · by_cases h5 : p3 v l = true
        · simp [processLine, h1, h2, h4, h5] at h
        · simp [processLine, h1, h2, h4, h5] at h
          exact h.symm
  · by_cases hd : declAt v l = true
    · by_cases hds : destrSearch v l = true
      · simp [processLine, h1, hd, hds] at h
      · simp [processLine, h1, hd, hds] at h
        exact h.symm
    · simp [processLine, h1, hd] at h
      exact h.symm

theorem processLine_idem {v : List Char} (hv : IsIdent v) {l l2 : List Char} {b : Bool}
    (h : processLine v l = (some l2, b)) : processLine v l2 = (some l2, false) := by
  by_cases h1 : (subMem impLit l && subMem v l) = true
  · by_cases h2 : p1 v l = true
    · by_cases h3 : searchEmptyImport
          (sub4Go 0 (sub3Go v 0 none (sub2Go v 0 none (sub1Go v 0 l)))) = true
      · simp [processLine, h1, h2, h3] at h
      · have hl2 : sub4Go 0 (sub3Go v 0 none (sub2Go v 0 none (sub1Go v 0 l))) = l2 := by
          simp only [processLine, h1, h2, h3] at h
          simp at h
          exact h.1
        have h3f : searchEmptyImport
            (sub4Go 0 (sub3Go v 0 none (sub2Go v 0 none (sub1Go v 0 l)))) = false := by
          cases hx : searchEmptyImport
              (sub4Go 0 (sub3Go v 0 none (sub2Go v 0 none (sub1Go v 0 l)))) with
          | false => rfl
          | true => exact absurd hx h3
        have hid := sub4_id_of_nosearch h3f
        have hnw : hasWBFrom v none l2 = false := by
          rw [← hl2, hid]
          exact noWB_sub3 hv _ _ (le_refl _) none
        exact processLine_of_noWB hv.1 hnw
    · by_cases h4 : p2 v l = true
      · simp [processLine, h1, h2, h4] at h
      · by_cases h5 : p3 v l = true
        · simp [processLine, h1, h2, h4, h5] at h
        · have hl2 : l2 = l := by
            simp [processLine, h1, h2, h4, h5] at h
            exact h.1.symm
          rw [hl2]
          simp [processLine, h1, h2, h4, h5]
  · by_cases hd : declAt v l = true
    · by_cases hds : destrSearch v l = true
      · have hl2 : sub3Go v 0 none (sub2Go v 0 none (sub1Go v 0 l)) = l2 := by
          simp only [processLine, h1, hd, hds] at h
          simp at h
          exact h.1
        have hnw : hasWBFrom v none l2 = false := by
          rw [← hl2]
          exact noWB_sub3 hv _ _ (le_refl _) none
        exact processLine_of_noWB hv.1 hnw
      · have hl2 : l2 = l := by
          simp [processLine, h1, hd, hds] at h
          exact h.1.symm
        rw [hl2]
        simp [processLine, h1, hd, hds]
    · have hl2 : l2 = l := by
        simp [processLine, h1, hd] at h
        exact h.1.symm
      rw [hl2]
      simp [processLine, h1, hd]

theorem fixLines_idem {v : List Char} (hv : IsIdent v) :
    ∀ lines : List (List Char), fixLines v (fixLines v lines).1 = ((fixLines v lines).1, false) := by
  intro lines
  induction lines with
  | nil => rfl
  | cons l ls ih =>
    cases hp : processLine v l with
    | mk o b =>
      cases o with
      | none =>
        have hstep : fixLines v (l :: ls) = ((fixLines v ls).1, b || (fixLines v ls).2) := by
          simp [fixLines, hp]
        rw [hstep]
        exact ih
      | some l2 =>
        have hstep : fixLines v (l :: ls) = (l2 :: (fixLines v ls).1, b || (fixLines v ls).2) := by
          simp [fixLines, hp]
        rw [hstep]
        have h2 := processLine_idem hv hp
        simp [fixLines, h2, ih]

/-- Claim C7 — the per-file fix is idempotent: applying the line-editing
transform a second time, to the content produced by the first application,
makes no edits and reports no modification. -/
theorem c7_idempotent {v : List Char} (hv : IsIdent v) (lines : List (List Char)) :
    fix_unused_import v (fix_unused_import v lines).2 =
      (false, (fix_unused_import v lines).2) := by
  cases hf : fixLines v lines with
  | mk nl m =>
    cases m with
    | true =>
      have h1 : (fix_unused_import v lines).2 = nl := by simp [fix_unused_import, hf]
      rw [h1]
      have h2 : fixLines v nl = (nl, false) := by
        have h3 := fixLines_idem hv lines
        rw [hf] at h3
        exact h3
      simp [fix_unused_import, h2]
    | false =>
      have h1 : (fix_unused_import v lines).2 = lines := by simp [fix_unused_import, hf]
      rw [h1]
      simp [fix_unused_import, hf]

/-- Witness for C7 on a concrete file content. -/
theorem c7_witness :
    fix_unused_import ("foo").toList
        (fix_unused_import ("foo").toList [("import { foo, bar } from 'x';").toList]).2 =
      (false, (fix_unused_import ("foo").toList [("import { foo, bar } from 'x';").toList]).2) :=
  c7_idempotent ⟨by decide, by decide⟩ _

/-! ### The return value of `fix_unused_import` reports an actual change -/

theorem sub1Go_len (v : List Char) : ∀ (s : List Char) (k : Nat),
    (sub1Go v k s).length ≤ s.length := by
  intro s
  induction s with
  | nil => intro k; simp [sub1Go]
  | cons c cs ih =>
    intro k
    cases k with
    | succ k2 =>
      show (sub1Go v k2 cs).length ≤ (c :: cs).length
      exact le_trans (ih k2) (by simp)
    | zero =>
      by_cases hc : c = ','
      · by_cases hm : (v.isPrefixOf (cs.dropWhile isPySpace) &&
            rightOk ((cs.dropWhile isPySpace).drop v.length)) = true
        · have hstep : sub1Go v 0 (c :: cs) =
              sub1Go v ((cs.takeWhile isPySpace).length + v.length) cs := by
            simp [sub1Go, hc, hm]
          rw [hstep]
          exact le_trans (ih _) (by simp)
        · have hstep : sub1Go v 0 (c :: cs) = c :: sub1Go v 0 cs := by
            simp [sub1Go, hc, hm]
          rw [hstep]
          simpa using ih 0
      · have hstep : sub1Go v 0 (c :: cs) = c :: sub1Go v 0 cs := by
          simp [sub1Go, hc]
        rw [hstep]
        simpa using ih 0

theorem sub2Go_len (v : List Char) : ∀ (s : List Char) (k : Nat) (p : Option Char),
    (sub2Go v k p s).length ≤ s.length := by
  intro s
  induction s with
  | nil => intro k p; simp [sub2Go]
  | cons c cs ih =>
    intro k p
    cases k with
    | succ k2 =>
      show (sub2Go v k2 (some c) cs).length ≤ (c :: cs).length
      exact le_trans (ih k2 (some c)) (by simp)
    | zero =>
      by_cases hcond : (prevOk p && v.isPrefixOf (c :: cs)) = true
      · by_cases hhead : ((((c :: cs).drop v.length).dropWhile isPySpace).head? == some ',') = true
        · have hstep : sub2Go v 0 p (c :: cs) =
              sub2Go v (v.length - 1 + (((c :: cs).drop v.length).takeWhile isPySpace).length + 1)
                (some c) cs := by
            simp [sub2Go, hcond, hhead]
          rw [hstep]
          exact le_trans (ih _ (some c)) (by simp)
        · have hstep : sub2Go v 0 p (c :: cs) = c :: sub2Go v 0 (some c) cs := by
            simp [sub2Go, hcond, hhead]
          rw [hstep]
          simpa using ih 0 (some c)
      · have hstep : sub2Go v 0 p (c :: cs) = c :: sub2Go v 0 (some c) cs := by
          simp [sub2Go, hcond]
        rw [hstep]
        simpa using ih 0 (some c)

theorem sub3Go_len (v : List Char) : ∀ (s : List Char) (k : Nat) (p : Option Char),
    (sub3Go v k p s).length ≤ s.length := by
  intro s
  induction s with
  | nil => intro k p; simp [sub3Go]
  | cons c cs ih =>
    intro k p
    cases k with
    | succ k2 =>
      show (sub3Go v k2 (some c) cs).length ≤ (c :: cs).length
      exact le_trans (ih k2 (some c)) (by simp)
    | zero =>
      by_cases hb : boundedAt v p (c :: cs) = true
      · have hstep : sub3Go v 0 p (c :: cs) = sub3Go v (v.length - 1) (some c) cs := by
          simp [sub3Go, hb]
        rw [hstep]
        exact le_trans (ih _ (some c)) (by simp)
      · have hstep : sub3Go v 0 p (c :: cs) = c :: sub3Go v 0 (some c) cs := by
          simp [sub3Go, hb]
        rw [hstep]
        simpa using ih 0 (some c)

theorem sub1Go_eq_or_lt (v : List Char) : ∀ (s : List Char),
    sub1Go v 0 s = s ∨ (sub1Go v 0 s).length < s.length := by
  intro s
  induction s with
  | nil => left; rfl
  | cons c cs ih =>
    by_cases hc : c = ','
    · by_cases hm : (v.isPrefixOf (cs.dropWhile isPySpace) &&
          rightOk ((cs.dropWhile isPySpace).drop v.length)) = true
      · right
        have hstep : sub1Go v 0 (c :: cs) =
            sub1Go v ((cs.takeWhile isPySpace).length + v.length) cs := by
          simp [sub1Go, hc, hm]
        rw [hstep]
        have := sub1Go_len v cs ((cs.takeWhile isPySpace).length + v.length)
        simp only [List.length_cons]
        omega
      · have hstep : sub1Go v 0 (c :: cs) = c :: sub1Go v 0 cs := by
          simp [sub1Go, hc, hm]
        rw [hstep]
        rcases ih with he | hl
        · left; rw [he]
        · right; simp only [List.length_cons]; omega
    · have hstep : sub1Go v 0 (c :: cs) = c :: sub1Go v 0 cs := by
        simp [sub1Go, hc]
      rw [hstep]
      rcases ih with he | hl
      · left; rw [he]
      · right; simp only [List.length_cons]; omega

theorem sub2Go_eq_or_lt (v : List Char) : ∀ (s : List Char) (p : Option Char),
    sub2Go v 0 p s = s ∨ (sub2Go v 0 p s).length < s.length := by
  intro s
  induction s with
  | nil => intro p; left; rfl
  | cons c cs ih =>
    intro p
    by_cases hcond : (prevOk p && v.isPrefixOf (c :: cs)) = true
    · by_cases hhead : ((((c :: cs).drop v.length).dropWhile isPySpace).head? == some ',') = true
      · right
        have hstep : sub2Go v 0 p (c :: cs) =
            sub2Go v (v.length - 1 + (((c :: cs).drop v.length).takeWhile isPySpace).length + 1)
              (some c) cs := by
          simp [sub2Go, hcond, hhead]
        rw [hstep]
        have := sub2Go_len v cs
          (v.length - 1 + (((c :: cs).drop v.length).takeWhile isPySpace).length + 1) (some c)
        simp only [List.length_cons]
        omega
      · have hstep : sub2Go v 0 p (c :: cs) = c :: sub2Go v 0 (some c) cs := by
          simp [sub2Go, hcond, hhead]
        rw [hstep]
        rcases ih (some c) with he | hl
        · left; rw [he]
        · right; simp only [List.length_cons]; omega
    · have hstep : sub2Go v 0 p (c :: cs) = c :: sub2Go v 0 (some c) cs := by
        simp [sub2Go, hcond]
      rw [hstep]
      rcases ih (some c) with he | hl
      · left; rw [he]
      · right; simp only [List.length_cons]; omega

theorem sub3Go_eq_or_lt (v : List Char) : ∀ (s : List Char) (p : Option Char),
    sub3Go v 0 p s = s ∨ (sub3Go v 0 p s).length < s.length := by
  intro s
  induction s with
  | nil => intro p; left; rfl
  | cons c cs ih =>
    intro p
    by_cases hb : boundedAt v p (c :: cs) = true
    · right
      have hstep : sub3Go v 0 p (c :: cs) = sub3Go v (v.length - 1) (some c) cs := by
        simp [sub3Go, hb]
      rw [hstep]
      have := sub3Go_len v cs (v.length - 1) (some c)
      simp only [List.length_cons]
      omega
    · have hstep : sub3Go v 0 p (c :: cs) = c :: sub3Go v 0 (some c) cs := by
        simp [sub3Go, hb]
      rw [hstep]
      rcases ih (some c) with he | hl
      · left; rw [he]
      · right; simp only [List.length_cons]; omega

theorem sub3_ne_of_hasWB {v s : List Char} (hv : IsIdent v)
    (h : hasWBFrom v none s = true) : sub3Go v 0 none s ≠ s := by
  intro he
  have h2 := noWB_sub3 hv s.length s (le_refl _) none
  rw [he, h] at h2
  exact absurd h2 (by simp)

theorem subchain_lt {v l : List Char} (hv : IsIdent v)
    (hwb : hasWBFrom v none l = true) :
    (sub3Go v 0 none (sub2Go v 0 none (sub1Go v 0 l))).length < l.length := by
  rcases sub1Go_eq_or_lt v l with he1 | hl1
  · rcases sub2Go_eq_or_lt v (sub1Go v 0 l) none with he2 | hl2
    · rcases sub3Go_eq_or_lt v (sub2Go v 0 none (sub1Go v 0 l)) none with he3 | hl3
      · exfalso
        rw [he2, he1] at he3
        exact sub3_ne_of_hasWB hv hwb he3
      · rw [he2, he1] at hl3
        rw [he2, he1]
        exact hl3
    · have h3 := sub3Go_len v (sub2Go v 0 none (sub1Go v 0 l)) 0 none
      rw [he1] at hl2 h3 ⊢
      omega
  · have h2 := sub2Go_len v (sub1Go v 0 l) 0 none
    have h3 := sub3Go_len v (sub2Go v 0 none (sub1Go v 0 l)) 0 none
    omega

theorem processLine_none_true {v l : List Char} {b : Bool}
    (h : processLine v l = (none, b)) : b = true := by
  cases b with
  | true => rfl
  | false =>
    have h2 := processLine_false_inv h
    simp at h2

theorem processLine_some_true_lt {v l l2 : List Char} (hv : IsIdent v)
    (h : processLine v l = (some l2, true)) : l2.length < l.length := by
  by_cases h1 : (subMem impLit l && subMem v l) = true
  · by_cases h2 : p1 v l = true
    · by_cases h3 : searchEmptyImport
          (sub4Go 0 (sub3Go v 0 none (sub2Go v 0 none (sub1Go v 0 l)))) = true
      · simp [processLine, h1, h2, h3] at h
      · have hl2 : sub4Go 0 (sub3Go v 0 none (sub2Go v 0 none (sub1Go v 0 l))) = l2 := by
          simp only [processLine, h1, h2, h3] at h
          simp at h
          exact h
        have h3f : searchEmptyImport
            (sub4Go 0 (sub3Go v 0 none (sub2Go v 0 none (sub1Go v 0 l)))) = false := by
          cases hx : searchEmptyImport
              (sub4Go 0 (sub3Go v 0 none (sub2Go v 0 none (sub1Go v 0 l)))) with
          | false => rfl
          | true => exact absurd hx h3
        have hid := sub4_id_of_nosearch h3f
        have hwb : hasWBFrom v none l = true := (p1_internal l h2).toWB hv.1 none
        rw [← hl2, hid]
        exact subchain_lt hv hwb
    · by_cases h4 : p2 v l = true
      · simp [processLine, h1, h2, h4] at h
      · by_cases h5 : p3 v l = true
        · simp [processLine, h1, h2, h4, h5] at h
        · simp [processLine, h1, h2, h4, h5] at h
  · by_cases hd : declAt v l = true
    · by_cases hds : destrSearch v l = true
      · have hl2 : sub3Go v 0 none (sub2Go v 0 none (sub1Go v 0 l)) = l2 := by
          simp only [processLine, h1, hd, hds] at h
          simp at h
          exact h
        have hwb : hasWBFrom v none l = true := (destrSearch_internal l hds).toWB hv.1 none
        rw [← hl2]
        exact subchain_lt hv hwb
      · simp [processLine, h1, hd, hds] at h
    · simp [processLine, h1, hd] at h

theorem linesMeasure_cons (l : List Char) (ls : List (List Char)) :
    linesMeasure (l :: ls) = l.length + linesMeasure ls + 1 := by
  simp [linesMeasure]
  omega

theorem fixLines_measure {v : List Char} (hv : IsIdent v) :
    ∀ ls : List (List Char),
      linesMeasure (fixLines v ls).1 ≤ linesMeasure ls ∧
        ((fixLines v ls).2 = true → linesMeasure (fixLines v ls).1 < linesMeasure ls) := by
  intro ls
  induction ls with
  | nil =>
    refine ⟨le_refl _, ?_⟩
    intro h
    simp [fixLines] at h
  | cons l ls2 ih =>
    cases hp : processLine v l with
    | mk o b =>
      cases o with
      | none =>
        have h1 : (fixLines v (l :: ls2)).1 = (fixLines v ls2).1 := by simp [fixLines, hp]
        have h2 : (fixLines v (l :: ls2)).2 = (b || (fixLines v ls2).2) := by simp [fixLines, hp]
        rw [h1, h2, linesMeasure_cons]
        have hle := ih.1
        exact ⟨by omega, fun _ => by omega⟩
      | some l2 =>
        have h1 : (fixLines v (l :: ls2)).1 = l2 :: (fixLines v ls2).1 := by simp [fixLines, hp]
        have h2 : (fixLines v (l :: ls2)).2 = (b || (fixLines v ls2).2) := by simp [fixLines, hp]
        rw [h1, h2, linesMeasure_cons, linesMeasure_cons]
        cases b with
        | true =>
          have hlt := processLine_some_true_lt hv hp
          have hle := ih.1
          exact ⟨by omega, fun _ => by omega⟩
        | false =>
          have he : l2 = l := by
            have h3 := processLine_false_inv hp
            simpa using h3
          rw [he]
          refine ⟨by have := ih.1; omega, ?_⟩
          intro hflag
          simp only [Bool.false_or] at hflag
          have := ih.2 hflag
          omega

/-- Claim C8 — `fix_unused_import` returns `True` exactly when applying the
per-line edits actually changed or removed some line (the rewritten content
differs from the original), overwrites the content exactly in that case, and
when no line matched it returns `False` with the content untouched. -/
theorem c8_modified_iff {v : List Char} (hv : IsIdent v) (lines : List (List Char)) :
    ((fix_unused_import v lines).1 = true ↔ (fix_unused_import v lines).2 ≠ lines) ∧
    ((fix_unused_import v lines).1 = false → (fix_unused_import v lines).2 = lines) := by
  cases hf : fixLines v lines with
  | mk nl m =>
    cases m with
    | true =>
      have hji : fix_unused_import v lines = (true, nl) := by simp [fix_unused_import, hf]
      rw [hji]
      have hm := (fixLines_measure hv lines).2 (by rw [hf])
      rw [hf] at hm
      have hne : nl ≠ lines := by
        intro he
        rw [he] at hm
        exact absurd hm (lt_irrefl _)
      exact ⟨by simp [hne], by simp⟩
    | false =>
      have hji : fix_unused_import v lines = (false, lines) := by simp [fix_unused_import, hf]
      rw [hji]
      exact ⟨by simp, by simp⟩

/-- Witness for C8 on a concrete one-line file whose single import is
removed. -/
theorem c8_witness :
    ((fix_unused_import ("foo").toList [("import { foo } from 'x';").toList]).1 = true ↔
      (fix_unused_import ("foo").toList [("import { foo } from 'x';").toList]).2 ≠
        [("import { foo } from 'x';").toList]) ∧
    ((fix_unused_import ("foo").toList [("import { foo } from 'x';").toList]).1 = false →
      (fix_unused_import ("foo").toList [("import { foo } from 'x';").toList]).2 =
        [("import { foo } from 'x';").toList]) :=
  c8_modified_iff ⟨by decide, by decide⟩ _

/-! ### Read failure -/

/-- Claim C10 — when the file cannot be read (it is absent from the file
system), the exception of `open` is caught: the function logs the failure
with the file path, returns `False`, and the file system is left exactly as
it was (nothing is created or written). -/
theorem c10_read_failure (fs : String → Option (List (List Char))) (path : String)
    (v : List Char) (h : fs path = none) :
    fixFile fs path v = (false, fs, ["Error fixing " ++ path]) := by
  simp [fixFile, h]

/-- Witness for C10 on an empty file system. -/
theorem c10_witness :
    fixFile (fun _ => none) ("src/a.ts") ("foo").toList =
      (false, (fun _ => none), ["Error fixing " ++ "src/a.ts"]) :=
  c10_read_failure _ _ _ rfl

